import Mathlib

/-!
Shallow embedding of the supercluster clustering engine (src/index.js) and
verification of its natural-language specification.

The clustering core (cluster nodes, the greedy merge pass `_cluster`, the
neighbor query `_getNeighbors`, the zoom cascade of `load`, and the query
path `getClusters`) is embedded generically over a linear ordered field `K`:
instantiating `K := ℚ` gives an executable model for concrete runs, and
`K := ℝ` lets the model compose with the Web-Mercator projection functions
`lngX`/`latY`/`xLng`/`yLat`, which involve `sin`, `log`, `exp` and `arctan`
and are therefore modelled over the real numbers.

JavaScript mutable node objects are modelled by a list of node values
together with functional updates (`List.set`); the only field the source
ever mutates is `zoom`, written through `Node.setZoom`.  The external
R-tree collaborator (rbush) is modelled by its interface: a bounding-box
search returning every indexed node whose point lies in the closed box.
-/

set_option linter.unusedSectionVars false

namespace Supercluster

variable {K : Type} [LinearOrderedField K]

/-- Recognized options of the SuperCluster constructor.  `nodeSize` (an
R-tree performance hint) and `log` (timing instrumentation) do not affect
any observable clustering result and are omitted from the model. -/
structure Options (K : Type) where
  minZoom : ℕ
  maxZoom : ℕ
  radius : K
  extent : K

/-- Default option values from the source: minZoom 0, maxZoom 16,
radius 40, extent 512. -/
def defaultOptions : Options K := ⟨0, 16, 40, 512⟩

/-- A cluster node, mirroring `createCluster`'s object shape:
anchor position `x,y`, weighted center `wx,wy`, the last zoom the node was
processed at (`none` models the JS `Infinity` sentinel), the count of
original points subsumed, the list of absorbed child nodes (JS `null`
children modelled as `[]`), and for leaves the index of the original input
feature (JS stores the feature object itself; the model stores its index in
the input sequence, which identifies it). -/
inductive Node (K : Type) : Type where
  | mk (x y wx wy : K) (zoom : Option ℕ) (numPoints : ℕ)
       (children : List (Node K)) (point : Option ℕ) : Node K

def Node.x : Node K → K
  | .mk v _ _ _ _ _ _ _ => v

def Node.y : Node K → K
  | .mk _ v _ _ _ _ _ _ => v

def Node.wx : Node K → K
  | .mk _ _ v _ _ _ _ _ => v

def Node.wy : Node K → K
  | .mk _ _ _ v _ _ _ _ => v

def Node.zoom : Node K → Option ℕ
  | .mk _ _ _ _ v _ _ _ => v

def Node.numPoints : Node K → ℕ
  | .mk _ _ _ _ _ v _ _ => v

def Node.children : Node K → List (Node K)
  | .mk _ _ _ _ _ _ v _ => v

def Node.point : Node K → Option ℕ
  | .mk _ _ _ _ _ _ _ v => v

/-- The single mutation the source performs on an existing node:
`node.zoom = zoom`. -/
def Node.setZoom (z : ℕ) : Node K → Node K
  | .mk x y wx wy _ np ch pt => .mk x y wx wy (some z) np ch pt

@[simp] theorem Node.x_mk (x y wx wy : K) (z np ch pt) :
    (Node.mk x y wx wy z np ch pt).x = x := rfl

@[simp] theorem Node.y_mk (x y wx wy : K) (z np ch pt) :
    (Node.mk x y wx wy z np ch pt).y = y := rfl

@[simp] theorem Node.wx_mk (x y wx wy : K) (z np ch pt) :
    (Node.mk x y wx wy z np ch pt).wx = wx := rfl

@[simp] theorem Node.wy_mk (x y wx wy : K) (z np ch pt) :
    (Node.mk x y wx wy z np ch pt).wy = wy := rfl

@[simp] theorem Node.zoom_mk (x y wx wy : K) (z np ch pt) :
    (Node.mk x y wx wy z np ch pt).zoom = z := rfl

@[simp] theorem Node.numPoints_mk (x y wx wy : K) (z np ch pt) :
    (Node.mk x y wx wy z np ch pt).numPoints = np := rfl

@[simp] theorem Node.children_mk (x y wx wy : K) (z np ch pt) :
    (Node.mk x y wx wy z np ch pt).children = ch := rfl

@[simp] theorem Node.point_mk (x y wx wy : K) (z np ch pt) :
    (Node.mk x y wx wy z np ch pt).point = pt := rfl

@[simp] theorem Node.x_setZoom (n : Node K) (z : ℕ) : (n.setZoom z).x = n.x := by
  cases n; rfl

@[simp] theorem Node.y_setZoom (n : Node K) (z : ℕ) : (n.setZoom z).y = n.y := by
  cases n; rfl

@[simp] theorem Node.wx_setZoom (n : Node K) (z : ℕ) : (n.setZoom z).wx = n.wx := by
  cases n; rfl

@[simp] theorem Node.wy_setZoom (n : Node K) (z : ℕ) : (n.setZoom z).wy = n.wy := by
  cases n; rfl

@[simp] theorem Node.zoom_setZoom (n : Node K) (z : ℕ) :
    (n.setZoom z).zoom = some z := by
  cases n; rfl

@[simp] theorem Node.numPoints_setZoom (n : Node K) (z : ℕ) :
    (n.setZoom z).numPoints = n.numPoints := by
  cases n; rfl

@[simp] theorem Node.children_setZoom (n : Node K) (z : ℕ) :
    (n.setZoom z).children = n.children := by
  cases n; rfl

@[simp] theorem Node.point_setZoom (n : Node K) (z : ℕ) :
    (n.setZoom z).point = n.point := by
  cases n; rfl

/-- `createCluster(x, y)` from the source: a fresh node at `(x,y)` with
weighted center equal to its position, the `Infinity` zoom sentinel,
`numPoints` 1 and no children or source feature. -/
def createCluster (x y : K) : Node K :=
  Node.mk x y x y none 1 [] none

/-- Comparison `node.zoom <= z` as evaluated by JS where `node.zoom` may be
`Infinity` (then the comparison is false). -/
def zoomLE : Option ℕ → ℕ → Bool
  | none, _ => false
  | some v, z => v ≤ z

/-- Comparison `z < node.zoom` as evaluated by JS where `node.zoom` may be
`Infinity` (then the comparison is true). -/
def ltZoom (z : ℕ) : Option ℕ → Bool
  | none => true
  | some v => z < v

@[simp] theorem zoomLE_none (z : ℕ) : zoomLE none z = false := rfl

@[simp] theorem zoomLE_some (v z : ℕ) : zoomLE (some v) z = decide (v ≤ z) := by
  simp [zoomLE]

@[simp] theorem ltZoom_none (z : ℕ) : ltZoom z none = true := rfl

@[simp] theorem ltZoom_some (z v : ℕ) : ltZoom z (some v) = decide (z < v) := by
  simp [ltZoom]

theorem ltZoom_eq_not_zoomLE (z : ℕ) (oz : Option ℕ) :
    ltZoom z oz = !zoomLE oz z := by
  cases oz with
  | none => rfl
  | some v =>
    simp only [ltZoom, zoomLE, ← decide_not]
    exact decide_eq_decide.mpr (by omega)

/-- `distSq(a, b)` from the source: squared planar distance between the
anchor positions of two nodes. -/
def distSq (a b : Node K) : K :=
  (a.x - b.x) * (a.x - b.x) + (a.y - b.y) * (a.y - b.y)

/-- Placeholder node returned by out-of-range index reads; every read the
model performs is in range, so this value is never observed. -/
def defaultNode : Node K := createCluster 0 0

/-- Read of `nodes[i]` (always in range in the source). -/
def nget (ns : List (Node K)) (i : ℕ) : Node K :=
  ns.getD i defaultNode

/-- The search radius computed at the top of `_getNeighbors`:
`r = radius / (extent * Math.pow(2, zoom))`. -/
def searchRadius (o : Options K) (zoom : ℕ) : K :=
  o.radius / (o.extent * 2 ^ zoom)

/-- Interface model of the rbush collaborator's `search`: the indices of
every indexed node whose point lies in the closed bounding box (rbush's
intersection test is inclusive on all four edges).  During the merge pass
at zoom `z` the tree for tier `z+1` holds references to exactly the nodes
of the working set, so the model searches the current node list. -/
def searchBBox (ns : List (Node K)) (minX minY maxX maxY : K) : List ℕ :=
  (List.range ns.length).filter fun j =>
    decide (minX ≤ (nget ns j).x) && decide ((nget ns j).x ≤ maxX) &&
    decide (minY ≤ (nget ns j).y) && decide ((nget ns j).y ≤ maxY)

/-- `_getNeighbors(p, zoom)` from the source: bbox pre-filter around `p`
with radius `r`, then keep candidates that are not yet processed at this
zoom (`zoom < b.zoom`) and within exact circle distance
(`distSq(p, b) <= r * r`).  The source's early return on an empty bbox
result is semantically the filter of an empty list. -/
def _getNeighbors (o : Options K) (ns : List (Node K)) (p : Node K) (zoom : ℕ) :
    List ℕ :=
  let r := searchRadius o zoom
  (searchBBox ns (p.x - r) (p.y - r) (p.x + r) (p.y + r)).filter fun j =>
    ltZoom zoom (nget ns j).zoom && decide (distSq p (nget ns j) ≤ r * r)

/-- State while `_cluster` iterates: the working node set (whose `zoom`
fields mutate in place in the source) and the output cluster list built so
far. -/
structure PassState (K : Type) where
  ns : List (Node K)
  clusters : List (Node K)

/-- One iteration of the inner `for (j …)` loop of `_cluster`: claim the
neighbor (`b.zoom = zoom`) and accumulate `wx += b.x * b.numPoints`,
`wy += b.y * b.numPoints`, `numPoints += b.numPoints`. -/
def absorbStep (zoom : ℕ) (st : List (Node K) × K × K × ℕ) (j : ℕ) :
    List (Node K) × K × K × ℕ :=
  let b := nget st.1 j
  (st.1.set j (b.setZoom zoom),
   st.2.1 + b.x * (b.numPoints : K),
   st.2.2.1 + b.y * (b.numPoints : K),
   st.2.2.2 + b.numPoints)

/-- One iteration of the outer `for (i …)` loop of `_cluster` at index `i`:
skip nodes already visited at this zoom, otherwise claim the point, search
for unprocessed neighbors, and emit either the point itself or a fresh
aggregate anchored at `p.x, p.y` whose `children` are the neighbor nodes,
whose `numPoints` is the accumulated sum and whose `wx, wy` are the
accumulated weighted sums divided by `numPoints`. -/
def clusterStep (o : Options K) (zoom : ℕ) (s : PassState K) (i : ℕ) :
    PassState K :=
  let point := nget s.ns i
  if zoomLE point.zoom zoom then s
  else
    -- point.zoom = zoom (in-place write, visible to later neighbor searches)
    let p := point.setZoom zoom
    let ns1 := s.ns.set i p
    let neighbors := _getNeighbors o ns1 p zoom
    if neighbors.isEmpty then
      { ns := ns1, clusters := s.clusters ++ [p] }
    else
      let st := neighbors.foldl (absorbStep zoom)
        (ns1, p.wx * (p.numPoints : K), p.wy * (p.numPoints : K), p.numPoints)
      -- createCluster(point.x, point.y) with children, numPoints, wx, wy set
      let c := Node.mk p.x p.y (st.2.1 / (st.2.2.2 : K)) (st.2.2.1 / (st.2.2.2 : K))
        none st.2.2.2 (neighbors.map (nget st.1)) none
      { ns := st.1, clusters := s.clusters ++ [c] }

/-- `_cluster(points, zoom)` from the source: fold the outer loop over all
indices of the working set. -/
def _cluster (o : Options K) (points : List (Node K)) (zoom : ℕ) : PassState K :=
  (List.range points.length).foldl (clusterStep o zoom) ⟨points, []⟩

/-- The cluster list returned by one merge pass. -/
def clusterRun (o : Options K) (points : List (Node K)) (zoom : ℕ) :
    List (Node K) :=
  (_cluster o points zoom).clusters

/-- The zoom cascade of `load`: starting from node set `cs` and zoom `z`,
run `n` merge passes at zooms `z, z-1, …`, recording before each pass the
node set indexed into the tree for tier `z+1`, and finally the node set
indexed into the tree for the lowest tier.  The returned list holds the
contents of tiers `z+1, z, …, z+1-n` in order. -/
def cascade (o : Options K) (cs : List (Node K)) (z : ℕ) : ℕ → List (List (Node K))
  | 0 => [cs]
  | n + 1 => cs :: cascade o (clusterRun o cs z) (z - 1) n

/-- The `load` cascade on already-created leaf nodes: passes run from
`maxZoom` down to `minZoom`, producing the tier contents for zoom indices
`maxZoom+1` down to `minZoom`. -/
def loadNodes (o : Options K) (leaves : List (Node K)) : List (List (Node K)) :=
  cascade o leaves o.maxZoom (o.maxZoom + 1 - o.minZoom)

/-- Contents of the R-tree for tier `t` (zoom index `t`,
`minZoom ≤ t ≤ maxZoom + 1`) after `load`. -/
def tierNodes (o : Options K) (leaves : List (Node K)) (t : ℕ) : List (Node K) :=
  (loadNodes o leaves).getD (o.maxZoom + 1 - t) []

/-- Total number of original points represented by a node set. -/
def listMass (cs : List (Node K)) : ℕ :=
  (cs.map Node.numPoints).sum

/-- Total `numPoints` of the nodes of the working set not yet claimed at
zoom `z`. -/
def unclaimedMass (z : ℕ) (ns : List (Node K)) : ℕ :=
  ∑ i ∈ Finset.range ns.length,
    if ltZoom z (nget ns i).zoom = true then (nget ns i).numPoints else 0

theorem nget_set_self {ns : List (Node K)} {i : ℕ} (h : i < ns.length)
    (v : Node K) : nget (ns.set i v) i = v := by
  induction ns generalizing i with
  | nil => simp at h
  | cons a t ih =>
    cases i with
    | zero => rfl
    | succ n =>
      simp only [List.set, nget, List.getD_cons_succ]
      exact ih (by simpa using h)

theorem nget_set_ne {ns : List (Node K)} {i j : ℕ} (h : j ≠ i) (v : Node K) :
    nget (ns.set i v) j = nget ns j := by
  induction ns generalizing i j with
  | nil => rfl
  | cons a t ih =>
    cases i with
    | zero =>
      cases j with
      | zero => exact absurd rfl h
      | succ m => rfl
    | succ n =>
      cases j with
      | zero => rfl
      | succ m =>
        simp only [List.set, nget, List.getD_cons_succ]
        exact ih (fun hh => h (by omega))

@[simp] theorem length_set_node (ns : List (Node K)) (i : ℕ) (v : Node K) :
    (ns.set i v).length = ns.length := by
  simp

/-- Once a node is claimed at zoom `z`, the unclaimed sum does not see it:
claiming node `i` moves exactly its `numPoints` out of the unclaimed sum. -/
theorem unclaimedMass_set (z : ℕ) (ns : List (Node K)) (i : ℕ)
    (hi : i < ns.length) (hu : ltZoom z (nget ns i).zoom = true) :
    unclaimedMass z ns
      = unclaimedMass z (ns.set i ((nget ns i).setZoom z))
        + (nget ns i).numPoints := by
  unfold unclaimedMass
  rw [length_set_node]
  rw [← Finset.sum_erase_add (Finset.range ns.length) _ (Finset.mem_range.mpr hi),
      ← Finset.sum_erase_add (Finset.range ns.length)
        (fun k => if ltZoom z (nget (ns.set i ((nget ns i).setZoom z)) k).zoom = true
                  then (nget (ns.set i ((nget ns i).setZoom z)) k).numPoints else 0)
        (Finset.mem_range.mpr hi)]
  have h1 : ∀ k ∈ (Finset.range ns.length).erase i,
      (if ltZoom z (nget (ns.set i ((nget ns i).setZoom z)) k).zoom = true
       then (nget (ns.set i ((nget ns i).setZoom z)) k).numPoints else 0)
      = (if ltZoom z (nget ns k).zoom = true then (nget ns k).numPoints else 0) := by
    intro k hk
    rw [nget_set_ne (Finset.ne_of_mem_erase hk)]
  rw [Finset.sum_congr rfl h1]
  have h2 : nget (ns.set i ((nget ns i).setZoom z)) i = (nget ns i).setZoom z :=
    nget_set_self hi _
  rw [h2, hu]
  simp [ltZoom]

/-- Specification of the inner absorb loop of `_cluster`: folding
`absorbStep` over a duplicate-free list of in-range indices claims exactly
those nodes and accumulates the sums `Σ b.x * b.numPoints`,
`Σ b.y * b.numPoints` and `Σ b.numPoints` over the original node values. -/
theorem absorb_foldl_spec (z : ℕ) (l : List ℕ) (ns : List (Node K))
    (wx wy : K) (np : ℕ) (hnd : l.Nodup) (hlt : ∀ j ∈ l, j < ns.length) :
    (l.foldl (absorbStep z) (ns, wx, wy, np)).1.length = ns.length ∧
    (∀ j ∈ l, nget (l.foldl (absorbStep z) (ns, wx, wy, np)).1 j
        = (nget ns j).setZoom z) ∧
    (∀ k, k ∉ l → nget (l.foldl (absorbStep z) (ns, wx, wy, np)).1 k = nget ns k) ∧
    (l.foldl (absorbStep z) (ns, wx, wy, np)).2.1
      = wx + (l.map (fun j => (nget ns j).x * ((nget ns j).numPoints : K))).sum ∧
    (l.foldl (absorbStep z) (ns, wx, wy, np)).2.2.1
      = wy + (l.map (fun j => (nget ns j).y * ((nget ns j).numPoints : K))).sum ∧
    (l.foldl (absorbStep z) (ns, wx, wy, np)).2.2.2
      = np + (l.map (fun j => (nget ns j).numPoints)).sum := by
  induction l generalizing ns wx wy np with
  | nil => simp
  | cons j t ih =>
    have hjt : j ∉ t := (List.nodup_cons.mp hnd).1
    have hnd' : t.Nodup := (List.nodup_cons.mp hnd).2
    have hj : j < ns.length := hlt j (List.mem_cons_self j t)
    simp only [List.foldl_cons]
    have hstep : absorbStep z (ns, wx, wy, np) j
        = (ns.set j ((nget ns j).setZoom z),
           wx + (nget ns j).x * ((nget ns j).numPoints : K),
           wy + (nget ns j).y * ((nget ns j).numPoints : K),
           np + (nget ns j).numPoints) := rfl
    rw [hstep]
    have hlt' : ∀ k ∈ t, k < (ns.set j ((nget ns j).setZoom z)).length := by
      intro k hk; rw [length_set_node]; exact hlt k (List.mem_cons_of_mem j hk)
    obtain ⟨ih1, ih2, ih3, ih4, ih5, ih6⟩ :=
      ih (ns.set j ((nget ns j).setZoom z))
        (wx + (nget ns j).x * ((nget ns j).numPoints : K))
        (wy + (nget ns j).y * ((nget ns j).numPoints : K))
        (np + (nget ns j).numPoints) hnd' hlt'
    have hset : ∀ k ∈ t, nget (ns.set j ((nget ns j).setZoom z)) k = nget ns k := by
      intro k hk
      have hne : k ≠ j := fun hh => hjt (hh ▸ hk)
      exact nget_set_ne hne _
    refine ⟨by rw [ih1, length_set_node], ?_, ?_, ?_, ?_, ?_⟩
    · intro k hk
      rcases List.mem_cons.mp hk with hk | hk
      · subst hk
        rw [ih3 k hjt, nget_set_self hj]
      · rw [ih2 k hk, hset k hk]
    · intro k hk
      have hkj : k ≠ j := fun hh => hk (hh ▸ List.mem_cons_self j t)
      have hkt : k ∉ t := fun hh => hk (List.mem_cons_of_mem j hh)
      rw [ih3 k hkt, nget_set_ne hkj]
    · rw [ih4]
      simp only [List.map_cons, List.sum_cons]
      rw [List.map_congr_left (fun k hk => by rw [hset k hk])]
      ring
    · rw [ih5]
      simp only [List.map_cons, List.sum_cons]
      rw [List.map_congr_left (fun k hk => by rw [hset k hk])]
      ring
    · rw [ih6]
      simp only [List.map_cons, List.sum_cons]
      rw [List.map_congr_left (fun k hk => by rw [hset k hk])]
      omega

/-! Named pieces of one non-skipped iteration of the outer `_cluster` loop,
used to state what the pass emits: the claimed point `p`, the working set
after the claim write, the neighbor list, and the emitted aggregate. -/

/-- The claiming node `p` after the write `point.zoom = zoom`. -/
def claimP (ns : List (Node K)) (i z : ℕ) : Node K :=
  (nget ns i).setZoom z

/-- The working set after the claim write to index `i`. -/
def claimNs (ns : List (Node K)) (i z : ℕ) : List (Node K) :=
  ns.set i (claimP ns i z)

/-- The candidate (neighbor) index list the claiming node at `i` absorbs. -/
def nbrsAt (o : Options K) (z : ℕ) (ns : List (Node K)) (i : ℕ) : List ℕ :=
  _getNeighbors o (claimNs ns i z) (claimP ns i z) z

/-- `numPoints` accumulated by the absorb loop: the claiming node's mass
plus the mass of every candidate. -/
def aggNP (o : Options K) (z : ℕ) (ns : List (Node K)) (i : ℕ) : ℕ :=
  (claimP ns i z).numPoints
    + ((nbrsAt o z ns i).map fun j => (nget (claimNs ns i z) j).numPoints).sum

/-- Weighted x-sum accumulated by the absorb loop: `p` contributes
`p.wx * p.numPoints`, each candidate `b` contributes `b.x * b.numPoints`. -/
def aggWxSum (o : Options K) (z : ℕ) (ns : List (Node K)) (i : ℕ) : K :=
  (claimP ns i z).wx * ((claimP ns i z).numPoints : K)
    + ((nbrsAt o z ns i).map fun j =>
        (nget (claimNs ns i z) j).x * ((nget (claimNs ns i z) j).numPoints : K)).sum

/-- Weighted y-sum accumulated by the absorb loop. -/
def aggWySum (o : Options K) (z : ℕ) (ns : List (Node K)) (i : ℕ) : K :=
  (claimP ns i z).wy * ((claimP ns i z).numPoints : K)
    + ((nbrsAt o z ns i).map fun j =>
        (nget (claimNs ns i z) j).y * ((nget (claimNs ns i z) j).numPoints : K)).sum

/-- The aggregate node emitted when the claiming node at `i` has
candidates: anchored at `p.x, p.y`, with the claimed candidate nodes as
children and the accumulated weighted center. -/
def aggregateNode (o : Options K) (z : ℕ) (ns : List (Node K)) (i : ℕ) : Node K :=
  Node.mk (claimP ns i z).x (claimP ns i z).y
    (aggWxSum o z ns i / (aggNP o z ns i : K))
    (aggWySum o z ns i / (aggNP o z ns i : K))
    none (aggNP o z ns i)
    ((nbrsAt o z ns i).map fun j => (nget (claimNs ns i z) j).setZoom z)
    none

/-- What one non-skipped iteration emits: either the claimed point itself
(no candidates) or the aggregate node. -/
def emittedAt (o : Options K) (z : ℕ) (ns : List (Node K)) (i : ℕ)
    (c : Node K) : Prop :=
  (nbrsAt o z ns i = [] ∧ c = claimP ns i z) ∨
  (nbrsAt o z ns i ≠ [] ∧ c = aggregateNode o z ns i)

/-- A node emitted by some iteration of the pass over working set `ns`. -/
def emittedShape (o : Options K) (z : ℕ) (ns : List (Node K)) (c : Node K) :
    Prop :=
  ∃ i, i < ns.length ∧ zoomLE (nget ns i).zoom z = false ∧ emittedAt o z ns i c

@[simp] theorem claimNs_length (ns : List (Node K)) (i z : ℕ) :
    (claimNs ns i z).length = ns.length := by
  simp [claimNs]

theorem mem_getNeighbors_lt {o : Options K} {ns : List (Node K)} {p : Node K}
    {z j : ℕ} (h : j ∈ _getNeighbors o ns p z) : j < ns.length := by
  unfold _getNeighbors searchBBox at h
  have := (List.mem_filter.mp h).1
  have := (List.mem_filter.mp this).1
  exact List.mem_range.mp this

theorem getNeighbors_nodup (o : Options K) (ns : List (Node K)) (p : Node K)
    (z : ℕ) : (_getNeighbors o ns p z).Nodup := by
  unfold _getNeighbors searchBBox
  exact ((List.nodup_range _).filter _).filter _

theorem mem_getNeighbors_unclaimed {o : Options K} {ns : List (Node K)}
    {p : Node K} {z j : ℕ} (h : j ∈ _getNeighbors o ns p z) :
    ltZoom z (nget ns j).zoom = true := by
  unfold _getNeighbors at h
  have := (List.mem_filter.mp h).2
  exact (Bool.and_eq_true_iff.mp this).1

theorem mem_getNeighbors_dist {o : Options K} {ns : List (Node K)}
    {p : Node K} {z j : ℕ} (h : j ∈ _getNeighbors o ns p z) :
    distSq p (nget ns j) ≤ searchRadius o z * searchRadius o z := by
  unfold _getNeighbors at h
  have := (List.mem_filter.mp h).2
  exact of_decide_eq_true (Bool.and_eq_true_iff.mp this).2

/-- A node whose stored zoom is already `z` never passes the
`zoom < b.zoom` filter of `_getNeighbors`. -/
theorem not_mem_getNeighbors_of_claimed {o : Options K} {ns : List (Node K)}
    {p : Node K} {z i : ℕ} (h : (nget ns i).zoom = some z) :
    i ∉ _getNeighbors o ns p z := by
  intro hmem
  have := mem_getNeighbors_unclaimed hmem
  rw [h] at this
  simp [ltZoom] at this

/-- Case equation for a skipped iteration (`point.zoom <= zoom`). -/
theorem clusterStep_skip {o : Options K} {z : ℕ} {s : PassState K} {i : ℕ}
    (h : zoomLE (nget s.ns i).zoom z = true) : clusterStep o z s i = s := by
  simp [clusterStep, h]

/-- Case equation for a non-skipped iteration with no candidates. -/
theorem clusterStep_single {o : Options K} {z : ℕ} {s : PassState K} {i : ℕ}
    (h : zoomLE (nget s.ns i).zoom z = false) (hnb : nbrsAt o z s.ns i = []) :
    clusterStep o z s i
      = ⟨claimNs s.ns i z, s.clusters ++ [claimP s.ns i z]⟩ := by
  simp only [clusterStep, h, Bool.false_eq_true, if_false]
  have e1 : Node.setZoom z (nget s.ns i) = claimP s.ns i z := rfl
  rw [e1]
  have e2 : s.ns.set i (claimP s.ns i z) = claimNs s.ns i z := rfl
  rw [e2]
  have e3 : _getNeighbors o (claimNs s.ns i z) (claimP s.ns i z) z
      = nbrsAt o z s.ns i := rfl
  rw [e3, hnb]
  rfl

/-- The working set after one merging iteration: the claim write to `i`
followed by the claim writes of the absorb loop. -/
def postNs (o : Options K) (z : ℕ) (ns : List (Node K)) (i : ℕ) : List (Node K) :=
  ((nbrsAt o z ns i).foldl (absorbStep z)
    (claimNs ns i z,
     (claimP ns i z).wx * ((claimP ns i z).numPoints : K),
     (claimP ns i z).wy * ((claimP ns i z).numPoints : K),
     (claimP ns i z).numPoints)).1

/-- Case equation for a non-skipped iteration with candidates: the working
set receives the claim writes and the emitted node is `aggregateNode`. -/
theorem clusterStep_merge {o : Options K} {z : ℕ} {s : PassState K} {i : ℕ}
    (h : zoomLE (nget s.ns i).zoom z = false) (hnb : nbrsAt o z s.ns i ≠ []) :
    clusterStep o z s i
      = ⟨postNs o z s.ns i, s.clusters ++ [aggregateNode o z s.ns i]⟩ := by
  have hnd : (nbrsAt o z s.ns i).Nodup := getNeighbors_nodup _ _ _ _
  have hlt : ∀ j ∈ nbrsAt o z s.ns i, j < (claimNs s.ns i z).length := by
    intro j hj; exact mem_getNeighbors_lt hj
  obtain ⟨h1, h2, h3, h4, h5, h6⟩ := absorb_foldl_spec z (nbrsAt o z s.ns i)
    (claimNs s.ns i z)
    ((claimP s.ns i z).wx * ((claimP s.ns i z).numPoints : K))
    ((claimP s.ns i z).wy * ((claimP s.ns i z).numPoints : K))
    ((claimP s.ns i z).numPoints) hnd hlt
  simp only [clusterStep, h, Bool.false_eq_true, if_false]
  have e1 : Node.setZoom z (nget s.ns i) = claimP s.ns i z := rfl
  rw [e1]
  have e2 : s.ns.set i (claimP s.ns i z) = claimNs s.ns i z := rfl
  rw [e2]
  have e3 : _getNeighbors o (claimNs s.ns i z) (claimP s.ns i z) z
      = nbrsAt o z s.ns i := rfl
  rw [e3]
  rw [if_neg (by simpa [List.isEmpty_iff] using hnb)]
  have hchil : ((nbrsAt o z s.ns i).map
      (nget ((nbrsAt o z s.ns i).foldl (absorbStep z)
        (claimNs s.ns i z,
         (claimP s.ns i z).wx * ((claimP s.ns i z).numPoints : K),
         (claimP s.ns i z).wy * ((claimP s.ns i z).numPoints : K),
         (claimP s.ns i z).numPoints)).1))
      = ((nbrsAt o z s.ns i).map fun j => (nget (claimNs s.ns i z) j).setZoom z) :=
    List.map_congr_left h2
  refine congrArg₂ PassState.mk rfl ?_
  refine congrArg (fun cc => s.clusters ++ [cc]) ?_
  unfold aggregateNode aggWxSum aggWySum aggNP
  rw [h4, h5, h6, hchil]

theorem nget_claimNs_self {ns : List (Node K)} {i : ℕ} (hi : i < ns.length)
    (z : ℕ) : nget (claimNs ns i z) i = claimP ns i z := by
  unfold claimNs
  exact nget_set_self hi _

theorem nget_claimNs_ne {ns : List (Node K)} {i k : ℕ} (hk : k ≠ i) (z : ℕ) :
    nget (claimNs ns i z) k = nget ns k := by
  unfold claimNs
  exact nget_set_ne hk _

/-- The claiming node never appears in its own candidate list: its zoom was
written to `z` before the neighbor search, and the search requires
`zoom < b.zoom`. -/
theorem self_not_mem_nbrsAt (o : Options K) (z : ℕ) (ns : List (Node K))
    (i : ℕ) (hi : i < ns.length) : i ∉ nbrsAt o z ns i := by
  have h : (nget (claimNs ns i z) i).zoom = some z := by
    rw [nget_claimNs_self hi]
    simp [claimP]
  exact not_mem_getNeighbors_of_claimed h

theorem postNs_facts (o : Options K) (z : ℕ) (ns : List (Node K)) (i : ℕ) :
    (postNs o z ns i).length = ns.length ∧
    (∀ j ∈ nbrsAt o z ns i,
        nget (postNs o z ns i) j = (nget (claimNs ns i z) j).setZoom z) ∧
    (∀ k, k ∉ nbrsAt o z ns i → nget (postNs o z ns i) k = nget (claimNs ns i z) k) := by
  have hnd : (nbrsAt o z ns i).Nodup := getNeighbors_nodup _ _ _ _
  have hlt : ∀ j ∈ nbrsAt o z ns i, j < (claimNs ns i z).length := by
    intro j hj; exact mem_getNeighbors_lt hj
  obtain ⟨h1, h2, h3, _, _, _⟩ := absorb_foldl_spec z (nbrsAt o z ns i)
    (claimNs ns i z)
    ((claimP ns i z).wx * ((claimP ns i z).numPoints : K))
    ((claimP ns i z).wy * ((claimP ns i z).numPoints : K))
    ((claimP ns i z).numPoints) hnd hlt
  exact ⟨by rw [postNs, h1, claimNs_length], h2, h3⟩

/-- Claiming a duplicate-free set of unclaimed nodes moves exactly their
mass out of the unclaimed sum. -/
theorem unclaimedMass_of_claims (z : ℕ) (ns ms : List (Node K)) (l : List ℕ)
    (hlen : ms.length = ns.length) (hnd : l.Nodup)
    (hun : ∀ j ∈ l, ltZoom z (nget ns j).zoom = true)
    (hl : ∀ j ∈ l, j < ns.length)
    (hmem : ∀ j ∈ l, nget ms j = (nget ns j).setZoom z)
    (hoff : ∀ k, k ∉ l → nget ms k = nget ns k) :
    unclaimedMass z ns
      = unclaimedMass z ms + (l.map fun j => (nget ns j).numPoints).sum := by
  classical
  unfold unclaimedMass
  rw [hlen]
  have hpt : ∀ j ∈ Finset.range ns.length,
      (if ltZoom z (nget ns j).zoom = true then (nget ns j).numPoints else 0)
      = (if ltZoom z (nget ms j).zoom = true then (nget ms j).numPoints else 0)
        + (if j ∈ l then (nget ns j).numPoints else 0) := by
    intro j _
    by_cases hj : j ∈ l
    · rw [if_pos hj, hun j hj, hmem j hj]
      simp [ltZoom]
    · rw [if_neg hj, hoff j hj]
      omega
  rw [Finset.sum_congr rfl hpt, Finset.sum_add_distrib]
  congr 1
  have hfin : ∀ x ∈ Finset.range ns.length,
      (if x ∈ l then (nget ns x).numPoints else 0)
      = (if x ∈ l.toFinset then (nget ns x).numPoints else 0) := by
    intro x _
    simp [List.mem_toFinset]
  rw [Finset.sum_congr rfl hfin, Finset.sum_ite_mem]
  have hsub : (Finset.range ns.length) ∩ l.toFinset = l.toFinset := by
    refine Finset.inter_eq_right.mpr ?_
    intro j hj
    exact Finset.mem_range.mpr (hl j (List.mem_toFinset.mp hj))
  rw [hsub, List.sum_toFinset _ hnd]

theorem listMass_append (l1 l2 : List (Node K)) :
    listMass (l1 ++ l2) = listMass l1 + listMass l2 := by
  simp [listMass]

theorem listMass_eq_sum_range (ns : List (Node K)) :
    listMass ns = ∑ i ∈ Finset.range ns.length, (nget ns i).numPoints := by
  induction ns with
  | nil => simp [listMass]
  | cons a t ih =>
    have hs : ∀ i : ℕ, nget (a :: t) (i + 1) = nget t i := fun i => rfl
    have h0 : nget (a :: t) 0 = a := rfl
    rw [List.length_cons, Finset.sum_range_succ']
    simp only [hs, h0]
    rw [← ih, listMass, List.map_cons, List.sum_cons, ← listMass]
    omega

theorem nget_mem {ns : List (Node K)} {i : ℕ} (h : i < ns.length) :
    nget ns i ∈ ns := by
  rw [nget, List.getD_eq_getElem?_getD, List.getElem?_eq_getElem h]
  exact List.getElem_mem h

/-- If no node of the working set is claimed at zoom `z`, the unclaimed sum
is the total mass. -/
theorem unclaimedMass_eq_listMass {z : ℕ} {ns : List (Node K)}
    (H : ∀ c ∈ ns, ltZoom z c.zoom = true) :
    unclaimedMass z ns = listMass ns := by
  rw [listMass_eq_sum_range]
  unfold unclaimedMass
  refine Finset.sum_congr rfl (fun i hi => ?_)
  rw [H _ (nget_mem (Finset.mem_range.mp hi))]
  simp

/-- If every node of the working set is claimed at zoom `z`, the unclaimed
sum vanishes. -/
theorem unclaimedMass_eq_zero {z : ℕ} {ns : List (Node K)}
    (H : ∀ i, i < ns.length → zoomLE (nget ns i).zoom z = true) :
    unclaimedMass z ns = 0 := by
  unfold unclaimedMass
  refine Finset.sum_eq_zero (fun i hi => ?_)
  have := H i (Finset.mem_range.mp hi)
  rw [ltZoom_eq_not_zoomLE, this]
  simp

/-- Pointwise evolution of the working set through one iteration of the
outer loop: a node is either untouched or receives the single claim write
`zoom = z`, and only nodes not yet claimed at `z` are written. -/
theorem clusterStep_nget (o : Options K) (z : ℕ) (s : PassState K) (i : ℕ)
    (hi : i < s.ns.length) (k : ℕ) :
    nget (clusterStep o z s i).ns k = nget s.ns k ∨
    (ltZoom z (nget s.ns k).zoom = true ∧
     nget (clusterStep o z s i).ns k = (nget s.ns k).setZoom z) := by
  by_cases h : zoomLE (nget s.ns i).zoom z = true
  · rw [clusterStep_skip h]; exact Or.inl rfl
  · have h' : zoomLE (nget s.ns i).zoom z = false := by
      revert h; cases zoomLE (nget s.ns i).zoom z <;> simp
    have hui : ltZoom z (nget s.ns i).zoom = true := by
      rw [ltZoom_eq_not_zoomLE, h']; rfl
    by_cases hnb : nbrsAt o z s.ns i = []
    · rw [clusterStep_single h' hnb]
      by_cases hk : k = i
      · subst hk
        exact Or.inr ⟨hui, nget_claimNs_self hi z⟩
      · exact Or.inl (nget_claimNs_ne hk z)
    · rw [clusterStep_merge h' hnb]
      obtain ⟨hp1, hp2, hp3⟩ := postNs_facts o z s.ns i
      by_cases hk : k = i
      · subst hk
        rw [hp3 k (self_not_mem_nbrsAt o z s.ns k hi), nget_claimNs_self hi z]
        exact Or.inr ⟨hui, rfl⟩
      · by_cases hknb : k ∈ nbrsAt o z s.ns i
        · have hu : ltZoom z (nget (claimNs s.ns i z) k).zoom = true :=
            mem_getNeighbors_unclaimed hknb
          rw [nget_claimNs_ne hk] at hu
          refine Or.inr ⟨hu, ?_⟩
          rw [hp2 k hknb, nget_claimNs_ne hk]
        · rw [hp3 k hknb]
          exact Or.inl (nget_claimNs_ne hk z)

theorem clusterStep_length (o : Options K) (z : ℕ) (s : PassState K) (i : ℕ) :
    (clusterStep o z s i).ns.length = s.ns.length := by
  by_cases h : zoomLE (nget s.ns i).zoom z = true
  · rw [clusterStep_skip h]
  · have h' : zoomLE (nget s.ns i).zoom z = false := by
      revert h; cases zoomLE (nget s.ns i).zoom z <;> simp
    by_cases hnb : nbrsAt o z s.ns i = []
    · rw [clusterStep_single h' hnb]; exact claimNs_length s.ns i z
    · rw [clusterStep_merge h' hnb]; exact (postNs_facts o z s.ns i).1

/-- After the iteration for index `i`, the node at `i` is claimed. -/
theorem clusterStep_claimed_self (o : Options K) (z : ℕ) (s : PassState K)
    (i : ℕ) (hi : i < s.ns.length) :
    zoomLE (nget (clusterStep o z s i).ns i).zoom z = true := by
  by_cases h : zoomLE (nget s.ns i).zoom z = true
  · rw [clusterStep_skip h]; exact h
  · have h' : zoomLE (nget s.ns i).zoom z = false := by
      revert h; cases zoomLE (nget s.ns i).zoom z <;> simp
    by_cases hnb : nbrsAt o z s.ns i = []
    · rw [clusterStep_single h' hnb]
      rw [nget_claimNs_self hi]
      simp [claimP, zoomLE]
    · rw [clusterStep_merge h' hnb]
      obtain ⟨hp1, hp2, hp3⟩ := postNs_facts o z s.ns i
      rw [hp3 i (self_not_mem_nbrsAt o z s.ns i hi), nget_claimNs_self hi]
      simp [claimP, zoomLE]

/-- Claimed nodes stay claimed through later iterations. -/
theorem clusterStep_claimed_mono (o : Options K) (z : ℕ) (s : PassState K)
    (i : ℕ) (hi : i < s.ns.length) (k : ℕ)
    (hk : zoomLE (nget s.ns k).zoom z = true) :
    zoomLE (nget (clusterStep o z s i).ns k).zoom z = true := by
  rcases clusterStep_nget o z s i hi k with hc | ⟨hu, hc⟩
  · rw [hc]; exact hk
  · rw [hc]; simp [zoomLE]

/-- One iteration emits at most one node, and any emitted node has the
shape `emittedAt` for some unclaimed index of the pre-iteration working
set. -/
theorem clusterStep_clusters (o : Options K) (z : ℕ) (s : PassState K) (i : ℕ)
    (hi : i < s.ns.length) :
    (clusterStep o z s i).clusters = s.clusters ∨
    ∃ c, emittedShape o z s.ns c ∧
      (clusterStep o z s i).clusters = s.clusters ++ [c] := by
  by_cases h : zoomLE (nget s.ns i).zoom z = true
  · rw [clusterStep_skip h]; exact Or.inl rfl
  · have h' : zoomLE (nget s.ns i).zoom z = false := by
      revert h; cases zoomLE (nget s.ns i).zoom z <;> simp
    by_cases hnb : nbrsAt o z s.ns i = []
    · rw [clusterStep_single h' hnb]
      exact Or.inr ⟨claimP s.ns i z, ⟨i, hi, h', Or.inl ⟨hnb, rfl⟩⟩, rfl⟩
    · rw [clusterStep_merge h' hnb]
      exact Or.inr ⟨aggregateNode o z s.ns i, ⟨i, hi, h', Or.inr ⟨hnb, rfl⟩⟩, rfl⟩

/-- Mass balance of one iteration: emitted mass plus remaining unclaimed
mass is invariant. -/
theorem clusterStep_mass (o : Options K) (z : ℕ) (s : PassState K) (i : ℕ)
    (hi : i < s.ns.length) :
    listMass (clusterStep o z s i).clusters
      + unclaimedMass z (clusterStep o z s i).ns
      = listMass s.clusters + unclaimedMass z s.ns := by
  by_cases h : zoomLE (nget s.ns i).zoom z = true
  · rw [clusterStep_skip h]
  · have h' : zoomLE (nget s.ns i).zoom z = false := by
      revert h; cases zoomLE (nget s.ns i).zoom z <;> simp
    have hui : ltZoom z (nget s.ns i).zoom = true := by
      rw [ltZoom_eq_not_zoomLE, h']; rfl
    have hclaim : unclaimedMass z s.ns
        = unclaimedMass z (claimNs s.ns i z) + (nget s.ns i).numPoints :=
      unclaimedMass_set z s.ns i hi hui
    by_cases hnb : nbrsAt o z s.ns i = []
    · rw [clusterStep_single h' hnb]
      dsimp only
      rw [listMass_append, hclaim]
      have : listMass [claimP s.ns i z] = (nget s.ns i).numPoints := by
        simp [listMass, claimP]
      rw [this]
      omega
    · rw [clusterStep_merge h' hnb]
      dsimp only
      obtain ⟨hp1, hp2, hp3⟩ := postNs_facts o z s.ns i
      have habs : unclaimedMass z (claimNs s.ns i z)
          = unclaimedMass z (postNs o z s.ns i)
            + ((nbrsAt o z s.ns i).map
                fun j => (nget (claimNs s.ns i z) j).numPoints).sum := by
        refine unclaimedMass_of_claims z (claimNs s.ns i z) (postNs o z s.ns i)
          (nbrsAt o z s.ns i) (by rw [hp1, claimNs_length])
          (getNeighbors_nodup _ _ _ _)
          (fun j hj => mem_getNeighbors_unclaimed hj)
          (fun j hj => mem_getNeighbors_lt hj)
          hp2 hp3
      rw [listMass_append, hclaim, habs]
      have : listMass [aggregateNode o z s.ns i]
          = (nget s.ns i).numPoints
            + ((nbrsAt o z s.ns i).map
                fun j => (nget (claimNs s.ns i z) j).numPoints).sum := by
        simp [listMass, aggregateNode, aggNP, claimP]
      rw [this]
      omega

/-- Prefix of the outer loop of `_cluster`: the state after processing the
first `k` indices. -/
def passUpTo (o : Options K) (pts : List (Node K)) (z k : ℕ) : PassState K :=
  (List.range k).foldl (clusterStep o z) ⟨pts, []⟩

theorem passUpTo_succ (o : Options K) (pts : List (Node K)) (z k : ℕ) :
    passUpTo o pts z (k + 1) = clusterStep o z (passUpTo o pts z k) k := by
  unfold passUpTo
  rw [List.range_succ, List.foldl_append]
  rfl

theorem _cluster_eq_passUpTo (o : Options K) (pts : List (Node K)) (z : ℕ) :
    _cluster o pts z = passUpTo o pts z pts.length := rfl

/-- Combined invariant of the outer loop of `_cluster`: the working set
keeps its length; each node is either untouched or has received the single
claim write (and was unclaimed before it); every processed index is
claimed; emitted mass plus unclaimed mass is the initial unclaimed mass;
and every emitted node has the `emittedAt` shape with respect to some
intermediate evolution of the input working set. -/
theorem passUpTo_inv (o : Options K) (pts : List (Node K)) (z k : ℕ)
    (hk : k ≤ pts.length) :
    (passUpTo o pts z k).ns.length = pts.length ∧
    (∀ j, nget (passUpTo o pts z k).ns j = nget pts j ∨
       (ltZoom z (nget pts j).zoom = true ∧
        nget (passUpTo o pts z k).ns j = (nget pts j).setZoom z)) ∧
    (∀ j, j < k → zoomLE (nget (passUpTo o pts z k).ns j).zoom z = true) ∧
    (listMass (passUpTo o pts z k).clusters
       + unclaimedMass z (passUpTo o pts z k).ns = unclaimedMass z pts) ∧
    (∀ c ∈ (passUpTo o pts z k).clusters, ∃ ns2,
        ns2.length = pts.length ∧
        (∀ j, nget ns2 j = nget pts j ∨
          (ltZoom z (nget pts j).zoom = true ∧
           nget ns2 j = (nget pts j).setZoom z)) ∧
        emittedShape o z ns2 c) := by
  induction k with
  | zero =>
    refine ⟨rfl, fun j => Or.inl rfl, fun j hj => absurd hj (Nat.not_lt_zero j),
      ?_, fun c hc => absurd hc (List.not_mem_nil c)⟩
    simp [passUpTo, listMass]
  | succ k ih =>
    obtain ⟨ih1, ih2, ih3, ih4, ih5⟩ := ih (Nat.le_of_succ_le hk)
    have hki : k < (passUpTo o pts z k).ns.length := by
      rw [ih1]; omega
    rw [passUpTo_succ]
    refine ⟨?_, ?_, ?_, ?_, ?_⟩
    · rw [clusterStep_length, ih1]
    · intro j
      rcases clusterStep_nget o z (passUpTo o pts z k) k hki j with hc | ⟨hu, hc⟩
      · rw [hc]; exact ih2 j
      · rcases ih2 j with hc2 | ⟨hu2, hc2⟩
        · rw [hc, hc2]
          rw [hc2] at hu
          exact Or.inr ⟨hu, rfl⟩
        · rw [hc2] at hu
          simp [ltZoom] at hu
    · intro j hj
      rcases Nat.lt_succ_iff_lt_or_eq.mp hj with hj | hj
      · exact clusterStep_claimed_mono o z (passUpTo o pts z k) k hki j (ih3 j hj)
      · rw [hj]
        exact clusterStep_claimed_self o z (passUpTo o pts z k) k hki
    · rw [clusterStep_mass o z (passUpTo o pts z k) k hki]
      exact ih4
    · intro c hc
      rcases clusterStep_clusters o z (passUpTo o pts z k) k hki with he | ⟨c2, hc2, he⟩
      · rw [he] at hc
        exact ih5 c hc
      · rw [he] at hc
        rcases List.mem_append.mp hc with hc | hc
        · exact ih5 c hc
        · have : c = c2 := by simpa using hc
          subst this
          exact ⟨(passUpTo o pts z k).ns, ih1, ih2, hc2⟩

/-- Mass conservation of one merge pass: if no input node is already
claimed at zoom `z`, the emitted clusters carry exactly the input mass. -/
theorem clusterRun_mass (o : Options K) (pts : List (Node K)) (z : ℕ)
    (H : ∀ c ∈ pts, ltZoom z c.zoom = true) :
    listMass (clusterRun o pts z) = listMass pts := by
  obtain ⟨h1, _, h3, h4, _⟩ := passUpTo_inv o pts z pts.length (le_refl _)
  have hz : unclaimedMass z (passUpTo o pts z pts.length).ns = 0 := by
    refine unclaimedMass_eq_zero (fun i hi => ?_)
    rw [h1] at hi
    exact h3 i hi
  have := h4
  rw [hz] at this
  rw [clusterRun, _cluster_eq_passUpTo]
  rw [unclaimedMass_eq_listMass H] at this
  omega

/-- Every node emitted by one merge pass has the `emittedAt` shape with
respect to a zoom-write evolution of the input working set. -/
theorem clusterRun_shape (o : Options K) (pts : List (Node K)) (z : ℕ) :
    ∀ c ∈ clusterRun o pts z, ∃ ns2,
      ns2.length = pts.length ∧
      (∀ j, nget ns2 j = nget pts j ∨
        (ltZoom z (nget pts j).zoom = true ∧
         nget ns2 j = (nget pts j).setZoom z)) ∧
      emittedShape o z ns2 c := by
  intro c hc
  obtain ⟨_, _, _, _, h5⟩ := passUpTo_inv o pts z pts.length (le_refl _)
  exact h5 c hc

/-- Every node emitted by the pass at zoom `z` carries either the zoom
stamp `z` (a re-emitted single point) or the `Infinity` sentinel (a fresh
aggregate). -/
theorem clusterRun_zoom (o : Options K) (pts : List (Node K)) (z : ℕ) :
    ∀ c ∈ clusterRun o pts z, c.zoom = some z ∨ c.zoom = none := by
  intro c hc
  obtain ⟨ns2, _, _, i, _, _, hsh⟩ := clusterRun_shape o pts z c hc
  rcases hsh with ⟨_, hc⟩ | ⟨_, hc⟩
  · subst hc
    simp [claimP]
  · subst hc
    simp [aggregateNode]

theorem list_getD_mem {α : Type} {l : List α} {i : ℕ} (h : i < l.length)
    (d : α) : l.getD i d ∈ l := by
  rw [List.getD_eq_getElem?_getD, List.getElem?_eq_getElem h]
  exact List.getElem_mem h

@[simp] theorem cascade_length (o : Options K) (cs : List (Node K)) (z n : ℕ) :
    (cascade o cs z n).length = n + 1 := by
  induction n generalizing cs z with
  | zero => rfl
  | succ n ih => simp [cascade, ih]

/-- Every tier recorded by the cascade carries the mass of the initial node
set, provided the initial set is entirely unclaimed at the starting zoom
(vacuously when no pass runs). -/
theorem cascade_mass (o : Options K) (n : ℕ) :
    ∀ (cs : List (Node K)) (z : ℕ),
      (n = 0 ∨ ((∀ c ∈ cs, ltZoom z c.zoom = true) ∧ n ≤ z + 1)) →
      ∀ l ∈ cascade o cs z n, listMass l = listMass cs := by
  induction n with
  | zero =>
    intro cs z _ l hl
    rw [show cascade o cs z 0 = [cs] from rfl] at hl
    simp at hl
    rw [hl]
  | succ n ih =>
    intro cs z hh l hl
    rcases hh with hh | ⟨hall, hnz⟩
    · exact absurd hh (Nat.succ_ne_zero n)
    rw [show cascade o cs z (n+1) = cs :: cascade o (clusterRun o cs z) (z-1) n
        from rfl] at hl
    rcases List.mem_cons.mp hl with hl | hl
    · rw [hl]
    · have hmass : listMass (clusterRun o cs z) = listMass cs :=
        clusterRun_mass o cs z hall
      have hnext : n = 0 ∨
          ((∀ c ∈ clusterRun o cs z, ltZoom (z-1) c.zoom = true) ∧ n ≤ (z-1) + 1) := by
        rcases Nat.eq_zero_or_pos n with hn | hn
        · exact Or.inl hn
        · refine Or.inr ⟨?_, by omega⟩
          intro c hc
          rcases clusterRun_zoom o cs z c hc with hcz | hcz <;> rw [hcz]
          · simp [ltZoom]
            omega
          · rfl
      rw [ih (clusterRun o cs z) (z-1) hnext l hl, hmass]

/-- Mass conservation across the whole hierarchy: every tier indexed by
`load` (tier `minZoom` up to tier `maxZoom + 1`) carries the total mass of
the leaf set, provided all leaves start with the `Infinity` sentinel. -/
theorem tierNodes_mass (o : Options K) (leaves : List (Node K))
    (hl : ∀ c ∈ leaves, c.zoom = none) (t : ℕ)
    (ht1 : o.minZoom ≤ t) (ht2 : t ≤ o.maxZoom + 1) :
    listMass (tierNodes o leaves t) = listMass leaves := by
  have hmem : tierNodes o leaves t ∈ loadNodes o leaves := by
    unfold tierNodes
    refine list_getD_mem ?_ _
    rw [loadNodes, cascade_length]
    omega
  refine cascade_mass o (o.maxZoom + 1 - o.minZoom) leaves o.maxZoom ?_ _ hmem
  rcases Nat.eq_zero_or_pos (o.maxZoom + 1 - o.minZoom) with hn | hn
  · exact Or.inl hn
  · refine Or.inr ⟨fun c hc => ?_, by omega⟩
    rw [hl c hc]
    rfl

/-! The coordinate projector.  `lngX`/`xLng` are rational functions and are
modelled generically; `latY`/`yLat` involve `sin`, `log`, `exp`, `arctan`
and are modelled over `ℝ` (the source computes with floating point; the
model uses exact reals). -/

/-- `lngX(lng) = lng / 360 + 0.5`. -/
def lngX (lng : K) : K :=
  lng / 360 + 0.5

/-- `xLng(x) = (x - 0.5) * 360`. -/
def xLng (x : K) : K :=
  (x - 0.5) * 360

/-- `latY(lat)`: spherical-Mercator vertical projection clamped to `[0,1]`.
The source divides by `1 - sin` with IEEE semantics: at `sin = 1` the
quotient is `+∞` (so `y = -∞`, clamped to `0`), at `sin = -1` the quotient
is `0` whose logarithm is `-∞` (so `y = +∞`, clamped to `1`); these two
branches make those limits explicit since real division by zero does not
produce infinities in the model. -/
noncomputable def latY (lat : ℝ) : ℝ :=
  let s := Real.sin (lat * Real.pi / 180)
  if s = 1 then 0
  else if s = -1 then 1
  else
    let y := 0.5 - 0.25 * Real.log ((1 + s) / (1 - s)) / Real.pi
    if y < 0 then 0 else if y > 1 then 1 else y

/-- `yLat(y)`: inverse spherical-Mercator vertical projection. -/
noncomputable def yLat (y : ℝ) : ℝ :=
  let y2 := (180 - y * 360) * Real.pi / 180
  360 * Real.arctan (Real.exp y2) / Real.pi - 90

/-- An input point feature: the coordinate pair the core interprets.  The
opaque payload is identified by the feature's position in the input
sequence. -/
structure Feature where
  lng : ℝ
  lat : ℝ

/-- `createPointCluster(p)`: the leaf node for input feature `f`, holding a
reference to it (modelled by its input index `i`). -/
noncomputable def createPointCluster (i : ℕ) (f : Feature) : Node ℝ :=
  Node.mk (lngX f.lng) (latY f.lat) (lngX f.lng) (latY f.lat) none 1 [] (some i)

/-- The leaf node set `points.map(createPointCluster)`. -/
noncomputable def leavesOf (features : List Feature) : List (Node ℝ) :=
  features.enum.map fun q => createPointCluster q.1 q.2

/-- `load(points)`: project every feature to a leaf node and run the zoom
cascade, producing one R-tree per tier. -/
noncomputable def load (o : Options ℝ) (features : List Feature) :
    List (List (Node ℝ)) :=
  loadNodes o (leavesOf features)

/-- The node set indexed in `this.trees[t]` after `load`. -/
noncomputable def tier (o : Options ℝ) (features : List Feature) (t : ℕ) :
    List (Node ℝ) :=
  tierNodes o (leavesOf features) t

/-- An output feature of `getClusters`: either the original input feature
(returned unmodified for a leaf) or a synthesized cluster feature carrying
the inverse-projected weighted center and the point count. -/
inductive OutFeature : Type where
  | original (i : ℕ) : OutFeature
  | clusterFeature (lng lat : ℝ) (numPoints : ℕ) : OutFeature

/-- `getCluster(cluster)`: map a node to its output feature. -/
noncomputable def getCluster (c : Node ℝ) : OutFeature :=
  match c.point with
  | some i => OutFeature.original i
  | none => OutFeature.clusterFeature (xLng c.wx) (yLat c.wy) c.numPoints

/-- Query-time model of the rbush `search` on a tier: every node whose
point lies in the closed box. -/
def rangeSearch (cs : List (Node K)) (minX minY maxX maxY : K) :
    List (Node K) :=
  cs.filter fun b =>
    decide (minX ≤ b.x) && decide (b.x ≤ maxX) &&
    decide (minY ≤ b.y) && decide (b.y ≤ maxY)

/-- A geographic query box `[west, south, east, north]`. -/
structure BBox where
  west : ℝ
  south : ℝ
  east : ℝ
  north : ℝ

/-- `getClusters(bbox, zoom)`: project the box corners (the projected
minimum y is the north edge), clamp the zoom to `[minZoom, maxZoom + 1]`,
range-search that tier and map the results to output features. -/
noncomputable def getClusters (o : Options ℝ) (features : List Feature)
    (b : BBox) (zoom : ℤ) : List OutFeature :=
  let z : ℤ := max (o.minZoom : ℤ) (min zoom ((o.maxZoom : ℤ) + 1))
  (rangeSearch (tier o features z.toNat)
    (lngX b.west) (latY b.north) (lngX b.east) (latY b.south)).map getCluster

@[simp] theorem numPoints_createPointCluster (i : ℕ) (f : Feature) :
    (createPointCluster i f).numPoints = 1 := rfl

@[simp] theorem zoom_createPointCluster (i : ℕ) (f : Feature) :
    (createPointCluster i f).zoom = none := rfl

theorem listMass_leavesOf (features : List Feature) :
    listMass (leavesOf features) = features.length := by
  unfold listMass leavesOf
  rw [List.map_map]
  have : (Node.numPoints ∘ fun q : ℕ × Feature => createPointCluster q.1 q.2)
      = fun _ => 1 := by
    funext q
    rfl
  rw [this, List.map_const']
  simp

/-- Claim C3: mass conservation.  After `load(points)` with `n` input
features, for every zoom tier from `minZoom` to `maxZoom + 1`, the sum of
`numPoints` over all nodes placed in that tier's index equals `n`. -/
theorem claimC3_mass_conservation (o : Options ℝ) (features : List Feature)
    (t : ℕ) (ht1 : o.minZoom ≤ t) (ht2 : t ≤ o.maxZoom + 1) :
    listMass (tier o features t) = features.length := by
  rw [tier, tierNodes_mass o (leavesOf features) ?_ t ht1 ht2,
    listMass_leavesOf]
  intro c hc
  obtain ⟨q, _, hq⟩ := List.mem_map.mp hc
  rw [← hq]
  rfl

/-- Witness for claim C3 at a concrete input: two features, tiers checked
at zoom index 1 of a hierarchy with `minZoom = 0`, `maxZoom = 1`. -/
theorem claimC3_witness :
    listMass (tier ⟨0, 1, 40, 512⟩ [⟨0, 0⟩, ⟨10, 20⟩] 1) = 2 :=
  claimC3_mass_conservation ⟨0, 1, 40, 512⟩ [⟨0, 0⟩, ⟨10, 20⟩] 1
    (by norm_num) (by norm_num)

/-! Concrete executable fixtures over `ℚ` used to settle the merge-pass
claims on explicit runs: options `minZoom 0, maxZoom 2, radius 2/5,
extent 1` (so the search radius is `2/5 / 2^z`), and collinear leaf sets on
the horizontal line `y = 1/2`. -/

/-- Concrete options for the executable runs. -/
def optQ : Options ℚ := ⟨0, 2, 2/5, 1⟩

/-- Three leaves at `x = 1/2, 4/5, 9/10`: the pass at zoom 2 (radius 1/10)
merges the last two into an aggregate anchored at `4/5` with weighted
center `17/20`; the pass at zoom 0 (radius 2/5) merges the first leaf with
that aggregate. -/
def leavesLine : List (Node ℚ) :=
  [createCluster (1/2) (1/2), createCluster (4/5) (1/2),
   createCluster (9/10) (1/2)]

/-- Three leaves at `x = 1/2, 21/50, 29/50`: at zoom 2 (radius 1/10) the
first leaf claims both others, which lie within the radius of the claimer
but `4/25 > 1/10` apart from each other. -/
def leavesTriple : List (Node ℚ) :=
  [createCluster (1/2) (1/2), createCluster (21/50) (1/2),
   createCluster (29/50) (1/2)]

/-- Counterexample to claim C1 as stated.  In the merge pass at zoom 0, the
claiming node `p` is the tier-1 single at `x = wx = 1/2` with mass 1 and
its only candidate is the tier-1 aggregate with anchor `x = 4/5`, weighted
center `wx = 17/20` and mass 2.  The `numPoints`-weighted average of the
weighted centers of `p` and the candidate is `(1/2·1 + 17/20·2)/3 = 11/15`,
but the emitted aggregate has `wx = 7/10 = (1/2·1 + 4/5·2)/3`: the
candidate contributed its anchor `x`, not its weighted center `wx`. -/
theorem claimC1_counterexample :
    (tierNodes optQ leavesLine 1).map (fun c => (c.x, c.wx, c.numPoints))
      = [(1/2, 1/2, 1), (4/5, 17/20, 2)] ∧
    (tierNodes optQ leavesLine 0).map
        (fun c => (c.x, c.wx, c.numPoints,
          c.children.map fun b => (b.x, b.wx, b.numPoints)))
      = [(1/2, 7/10, 3, [(4/5, 17/20, 2)])] ∧
    (7/10 : ℚ) ≠ (1/2 * 1 + 17/20 * 2) / (1 + 2) := by
  refine ⟨?_, ?_, by norm_num⟩ <;>
    norm_num [tierNodes, optQ, leavesLine, loadNodes, cascade, clusterRun,
      _cluster, clusterStep, _getNeighbors, searchBBox, searchRadius, nget,
      createCluster, distSq, absorbStep, List.range_succ, List.filter,
      Node.setZoom, zoomLE, ltZoom]

/-- Claim C1 amended: in a merge pass at zoom `z`, the weighted center of
the aggregate emitted for a claiming node with candidates is the
`numPoints`-weighted combination in which the claiming node `p` contributes
its weighted center `wx, wy` but every candidate contributes its anchor
position `x, y`, all divided by the total `numPoints`. -/
theorem claimC1_amended (o : Options K) (z : ℕ) (s : PassState K) (i : ℕ)
    (h : zoomLE (nget s.ns i).zoom z = false) (hnb : nbrsAt o z s.ns i ≠ []) :
    ∃ c, (clusterStep o z s i).clusters = s.clusters ++ [c] ∧
      c.wx = ((nget s.ns i).wx * ((nget s.ns i).numPoints : K)
          + ((nbrsAt o z s.ns i).map fun j =>
              (nget (claimNs s.ns i z) j).x
                * ((nget (claimNs s.ns i z) j).numPoints : K)).sum)
        / (((nget s.ns i).numPoints
            + ((nbrsAt o z s.ns i).map fun j =>
                (nget (claimNs s.ns i z) j).numPoints).sum : ℕ) : K) ∧
      c.wy = ((nget s.ns i).wy * ((nget s.ns i).numPoints : K)
          + ((nbrsAt o z s.ns i).map fun j =>
              (nget (claimNs s.ns i z) j).y
                * ((nget (claimNs s.ns i z) j).numPoints : K)).sum)
        / (((nget s.ns i).numPoints
            + ((nbrsAt o z s.ns i).map fun j =>
                (nget (claimNs s.ns i z) j).numPoints).sum : ℕ) : K) := by
  refine ⟨aggregateNode o z s.ns i, ?_, ?_, ?_⟩
  · rw [clusterStep_merge h hnb]
  · simp [aggregateNode, aggWxSum, aggNP, claimP]
  · simp [aggregateNode, aggWySum, aggNP, claimP]

/-- A two-node pass state for the amended-claim witnesses: a leaf claimer
and an unclaimed pre-aggregated candidate whose `wx` differs from its
anchor `x`. -/
def stateW : PassState ℚ :=
  ⟨[createCluster (1/2) (1/2), Node.mk (4/5) (1/2) (17/20) (1/2) none 2 [] none], []⟩

/-- Witness for the amended claim C1 at a concrete input. -/
theorem claimC1_witness :
    ∃ c, (clusterStep optQ 0 stateW 0).clusters = stateW.clusters ++ [c] ∧
      c.wx = ((nget stateW.ns 0).wx * ((nget stateW.ns 0).numPoints : ℚ)
          + ((nbrsAt optQ 0 stateW.ns 0).map fun j =>
              (nget (claimNs stateW.ns 0 0) j).x
                * ((nget (claimNs stateW.ns 0 0) j).numPoints : ℚ)).sum)
        / (((nget stateW.ns 0).numPoints
            + ((nbrsAt optQ 0 stateW.ns 0).map fun j =>
                (nget (claimNs stateW.ns 0 0) j).numPoints).sum : ℕ) : ℚ) ∧
      c.wy = ((nget stateW.ns 0).wy * ((nget stateW.ns 0).numPoints : ℚ)
          + ((nbrsAt optQ 0 stateW.ns 0).map fun j =>
              (nget (claimNs stateW.ns 0 0) j).y
                * ((nget (claimNs stateW.ns 0 0) j).numPoints : ℚ)).sum)
        / (((nget stateW.ns 0).numPoints
            + ((nbrsAt optQ 0 stateW.ns 0).map fun j =>
                (nget (claimNs stateW.ns 0 0) j).numPoints).sum : ℕ) : ℚ) :=
  claimC1_amended optQ 0 stateW 0 (by norm_num [stateW, nget, createCluster, zoomLE])
    (by norm_num [nbrsAt, _getNeighbors, claimNs, claimP, searchBBox,
      searchRadius, optQ, stateW, nget, createCluster, distSq, ltZoom,
      List.range_succ, List.filter, zoomLE])

/-- Counterexample to claim C2 as stated.  The aggregate emitted at zoom 0
for the `leavesLine` run has exactly one child (the absorbed candidate of
mass 2) although the claiming node (the single of mass 1 whose anchor
`1/2` the aggregate carries) together with its one candidate would give a
two-element list `[p] + candidates`; consequently the aggregate's
`numPoints` is `3 = 1 + 2`, which is not the sum `2` of its children's
`numPoints`. -/
theorem claimC2_counterexample :
    (tierNodes optQ leavesLine 0).map
        (fun c => (c.x, c.numPoints, c.children.map Node.numPoints))
      = [(1/2, 3, [2])] ∧
    ((3 : ℕ) ≠ List.sum [2] ∧ List.length [2] ≠ List.length [(1 : ℕ), 2]) := by
  refine ⟨?_, by norm_num⟩
  norm_num [tierNodes, optQ, leavesLine, loadNodes, cascade, clusterRun,
    _cluster, clusterStep, _getNeighbors, searchBBox, searchRadius, nget,
    createCluster, distSq, absorbStep, List.range_succ, List.filter,
    Node.setZoom, zoomLE, ltZoom]

/-- Claim C2 amended: the children of an emitted aggregate are exactly the
claimed candidates (the claiming node `p` is not among them), and its
`numPoints` is `p.numPoints` plus the sum of its children's `numPoints`. -/
theorem claimC2_amended (o : Options K) (z : ℕ) (s : PassState K) (i : ℕ)
    (h : zoomLE (nget s.ns i).zoom z = false) (hnb : nbrsAt o z s.ns i ≠ []) :
    ∃ c, (clusterStep o z s i).clusters = s.clusters ++ [c] ∧
      c.children = ((nbrsAt o z s.ns i).map fun j =>
        (nget (claimNs s.ns i z) j).setZoom z) ∧
      c.numPoints = (nget s.ns i).numPoints
        + (c.children.map Node.numPoints).sum := by
  refine ⟨aggregateNode o z s.ns i, ?_, ?_, ?_⟩
  · rw [clusterStep_merge h hnb]
  · rfl
  · have hc : ((aggregateNode o z s.ns i).children.map Node.numPoints)
        = (nbrsAt o z s.ns i).map fun j => (nget (claimNs s.ns i z) j).numPoints := by
      rw [show (aggregateNode o z s.ns i).children
          = (nbrsAt o z s.ns i).map fun j =>
              (nget (claimNs s.ns i z) j).setZoom z from rfl]
      rw [List.map_map]
      refine List.map_congr_left (fun j _ => ?_)
      simp
    rw [hc]
    simp [aggregateNode, aggNP, claimP]

/-- Witness for the amended claim C2 at a concrete input. -/
theorem claimC2_witness :
    ∃ c, (clusterStep optQ 0 stateW 0).clusters = stateW.clusters ++ [c] ∧
      c.children = ((nbrsAt optQ 0 stateW.ns 0).map fun j =>
        (nget (claimNs stateW.ns 0 0) j).setZoom 0) ∧
      c.numPoints = (nget stateW.ns 0).numPoints
        + (c.children.map Node.numPoints).sum :=
  claimC2_amended optQ 0 stateW 0 (by norm_num [stateW, nget, createCluster, zoomLE])
    (by norm_num [nbrsAt, _getNeighbors, claimNs, claimP, searchBBox,
      searchRadius, optQ, stateW, nget, createCluster, distSq, ltZoom,
      List.range_succ, List.filter, zoomLE])

/-- Counterexample to claim C4 as stated.  At zoom 2 the search radius is
`1/10`; the input leaves at `x = 21/50` and `x = 29/50` are each within
`1/10` of the claiming leaf at `x = 1/2`, but `4/25 > 1/10` apart from each
other — and the merge pass at zoom 2 still places both into the same
aggregate node (both appear in its children). -/
theorem claimC4_counterexample :
    (tierNodes optQ leavesTriple 2).map
        (fun c => (c.x, c.numPoints, c.children.map fun b => (b.x, b.y)))
      = [(1/2, 3, [(21/50, 1/2), (29/50, 1/2)])] ∧
    searchRadius optQ 2 = 1/10 ∧
    ((21/50 - 29/50) * (21/50 - 29/50) + (1/2 - 1/2) * (1/2 - 1/2) : ℚ)
      > searchRadius optQ 2 * searchRadius optQ 2 := by
  refine ⟨?_, by norm_num [searchRadius, optQ], by norm_num [searchRadius, optQ]⟩
  norm_num [tierNodes, optQ, leavesTriple, loadNodes, cascade, clusterRun,
    _cluster, clusterStep, _getNeighbors, searchBBox, searchRadius, nget,
    createCluster, distSq, absorbStep, List.range_succ, List.filter,
    Node.setZoom, zoomLE, ltZoom]

/-- Claim C4 amended: in the merge pass at zoom `z`, every candidate
absorbed into an emitted aggregate lies within the search radius `r` of
the claiming node's anchor (which the aggregate carries); consequently any
two nodes placed into the same aggregate are at squared distance at most
`(2r)^2` from each other.  The original claim — that two nodes farther
than `r` apart never share an aggregate — fails, because only the
claimer-to-candidate distance is tested. -/
theorem claimC4_amended (o : Options K) (z : ℕ) (s : PassState K) (i : ℕ)
    (h : zoomLE (nget s.ns i).zoom z = false) (hnb : nbrsAt o z s.ns i ≠ []) :
    ∃ c, (clusterStep o z s i).clusters = s.clusters ++ [c] ∧
      (∀ b ∈ c.children,
        distSq c b ≤ searchRadius o z * searchRadius o z) ∧
      (∀ b1 ∈ c.children, ∀ b2 ∈ c.children,
        distSq b1 b2 ≤ 4 * (searchRadius o z * searchRadius o z)) := by
  refine ⟨aggregateNode o z s.ns i, by rw [clusterStep_merge h hnb], ?_, ?_⟩
  · intro b hb
    obtain ⟨j, hj, hbj⟩ := List.mem_map.mp hb
    have hd := mem_getNeighbors_dist hj
    have : distSq (aggregateNode o z s.ns i) b
        = distSq (claimP s.ns i z) (nget (claimNs s.ns i z) j) := by
      rw [← hbj]
      simp [distSq, aggregateNode, claimP]
    rw [this]
    exact hd
  · intro b1 hb1 b2 hb2
    obtain ⟨j1, hj1, hbj1⟩ := List.mem_map.mp hb1
    obtain ⟨j2, hj2, hbj2⟩ := List.mem_map.mp hb2
    have hd1 := mem_getNeighbors_dist hj1
    have hd2 := mem_getNeighbors_dist hj2
    rw [distSq] at hd1 hd2 ⊢
    rw [← hbj1, ← hbj2]
    simp only [Node.x_setZoom, Node.y_setZoom] at hd1 hd2 ⊢
    set xp := (claimP s.ns i z).x
    set yp := (claimP s.ns i z).y
    set x1 := (nget (claimNs s.ns i z) j1).x
    set y1 := (nget (claimNs s.ns i z) j1).y
    set x2 := (nget (claimNs s.ns i z) j2).x
    set y2 := (nget (claimNs s.ns i z) j2).y
    nlinarith [sq_nonneg (x1 + x2 - 2 * xp), sq_nonneg (y1 + y2 - 2 * yp),
      hd1, hd2]

/-- Witness for the amended claim C4 at a concrete input. -/
theorem claimC4_witness :
    ∃ c, (clusterStep optQ 0 stateW 0).clusters = stateW.clusters ++ [c] ∧
      (∀ b ∈ c.children,
        distSq c b ≤ searchRadius optQ 0 * searchRadius optQ 0) ∧
      (∀ b1 ∈ c.children, ∀ b2 ∈ c.children,
        distSq b1 b2 ≤ 4 * (searchRadius optQ 0 * searchRadius optQ 0)) :=
  claimC4_amended optQ 0 stateW 0 (by norm_num [stateW, nget, createCluster, zoomLE])
    (by norm_num [nbrsAt, _getNeighbors, claimNs, claimP, searchBBox,
      searchRadius, optQ, stateW, nget, createCluster, distSq, ltZoom,
      List.range_succ, List.filter, zoomLE])

/-- Claim C10: in a merge pass at zoom `z`, the claiming node's
`zoomClaimed` is set to `z` before the neighbor search, candidates must
satisfy `zoomClaimed > z`, so the claiming node never appears in its own
candidate list and its mass enters the aggregate's `numPoints` exactly
once (as the explicit `p.numPoints` summand). -/
theorem claimC10_self_exclusion (o : Options K) (z : ℕ) (ns : List (Node K))
    (i : ℕ) (hi : i < ns.length) :
    (nget (claimNs ns i z) i).zoom = some z ∧
    (∀ j ∈ nbrsAt o z ns i, ltZoom z (nget (claimNs ns i z) j).zoom = true) ∧
    i ∉ nbrsAt o z ns i ∧
    aggNP o z ns i = (nget ns i).numPoints
      + ((nbrsAt o z ns i).map fun j => (nget (claimNs ns i z) j).numPoints).sum := by
  refine ⟨?_, fun j hj => mem_getNeighbors_unclaimed hj,
    self_not_mem_nbrsAt o z ns i hi, ?_⟩
  · rw [nget_claimNs_self hi]
    simp [claimP]
  · simp [aggNP, claimP]

/-- Witness for claim C10 at a concrete input. -/
theorem claimC10_witness :
    (nget (claimNs stateW.ns 0 0) 0).zoom = some 0 ∧
    (∀ j ∈ nbrsAt optQ 0 stateW.ns 0,
      ltZoom 0 (nget (claimNs stateW.ns 0 0) j).zoom = true) ∧
    0 ∉ nbrsAt optQ 0 stateW.ns 0 ∧
    aggNP optQ 0 stateW.ns 0 = (nget stateW.ns 0).numPoints
      + ((nbrsAt optQ 0 stateW.ns 0).map fun j =>
          (nget (claimNs stateW.ns 0 0) j).numPoints).sum :=
  claimC10_self_exclusion optQ 0 stateW.ns 0 (by norm_num [stateW])

/-- All four coordinates of a node lie in `[0,1]` and its mass is
positive. -/
def InUnit (c : Node K) : Prop :=
  0 ≤ c.x ∧ c.x ≤ 1 ∧ 0 ≤ c.y ∧ c.y ≤ 1 ∧
  0 ≤ c.wx ∧ c.wx ≤ 1 ∧ 0 ≤ c.wy ∧ c.wy ≤ 1 ∧ 1 ≤ c.numPoints

theorem InUnit_setZoom {c : Node K} (h : InUnit c) (z : ℕ) :
    InUnit (c.setZoom z) := by
  obtain ⟨h1, h2, h3, h4, h5, h6, h7, h8, h9⟩ := h
  exact ⟨by simpa, by simpa, by simpa, by simpa, by simpa, by simpa,
    by simpa, by simpa, by simpa⟩

/-- The merge pass preserves the unit-box bounds: an emitted single keeps
its coordinates, and an aggregate's weighted center is a convex
combination of coordinates in `[0,1]`. -/
theorem clusterRun_inUnit (o : Options K) (pts : List (Node K)) (z : ℕ)
    (H : ∀ c ∈ pts, InUnit c) : ∀ c ∈ clusterRun o pts z, InUnit c := by
  intro c hc
  obtain ⟨ns2, hlen, hev, i, hi, hzl, hsh⟩ := clusterRun_shape o pts z c hc
  have hns2 : ∀ j, j < ns2.length → InUnit (nget ns2 j) := by
    intro j hj
    have hjp : j < pts.length := by rw [← hlen]; exact hj
    rcases hev j with he | ⟨_, he⟩
    · rw [he]; exact H _ (nget_mem hjp)
    · rw [he]; exact InUnit_setZoom (H _ (nget_mem hjp)) z
  have hcl : ∀ j, j < ns2.length → InUnit (nget (claimNs ns2 i z) j) := by
    intro j hj
    by_cases hji : j = i
    · rw [hji, nget_claimNs_self hi]
      exact InUnit_setZoom (hns2 i hi) z
    · rw [nget_claimNs_ne hji]
      exact hns2 j hj
  rcases hsh with ⟨_, hc2⟩ | ⟨_, hc2⟩
  · subst hc2
    exact InUnit_setZoom (hns2 i hi) z
  · subst hc2
    obtain ⟨hp1, hp2, hp3, hp4, hp5, hp6, hp7, hp8, hp9⟩ :=
      InUnit_setZoom (hns2 i hi) z
    have hnbu : ∀ j ∈ nbrsAt o z ns2 i, InUnit (nget (claimNs ns2 i z) j) := by
      intro j hj
      have := mem_getNeighbors_lt hj
      rw [claimNs_length] at this
      exact hcl j this
    have hNge : 1 ≤ aggNP o z ns2 i := by
      unfold aggNP
      have : 1 ≤ (claimP ns2 i z).numPoints := hp9
      omega
    have hNpos : (0 : K) < ((aggNP o z ns2 i : ℕ) : K) := by
      exact_mod_cast Nat.lt_of_lt_of_le Nat.zero_lt_one hNge
    have hcastN : ((aggNP o z ns2 i : ℕ) : K)
        = ((claimP ns2 i z).numPoints : K)
          + ((nbrsAt o z ns2 i).map fun j =>
              ((nget (claimNs ns2 i z) j).numPoints : K)).sum := by
      unfold aggNP
      push_cast [Nat.cast_list_sum, List.map_map]
      rfl
    have hwx_nonneg : 0 ≤ aggWxSum o z ns2 i := by
      unfold aggWxSum
      have h1 : 0 ≤ (claimP ns2 i z).wx * ((claimP ns2 i z).numPoints : K) :=
        mul_nonneg hp5 (Nat.cast_nonneg _)
      have h2 : 0 ≤ ((nbrsAt o z ns2 i).map fun j =>
          (nget (claimNs ns2 i z) j).x * ((nget (claimNs ns2 i z) j).numPoints : K)).sum := by
        refine List.sum_nonneg (fun t ht => ?_)
        obtain ⟨j, hj, hjt⟩ := List.mem_map.mp ht
        rw [← hjt]
        exact mul_nonneg (hnbu j hj).1 (Nat.cast_nonneg _)
      linarith
    have hwy_nonneg : 0 ≤ aggWySum o z ns2 i := by
      unfold aggWySum
      have h1 : 0 ≤ (claimP ns2 i z).wy * ((claimP ns2 i z).numPoints : K) :=
        mul_nonneg hp7 (Nat.cast_nonneg _)
      have h2 : 0 ≤ ((nbrsAt o z ns2 i).map fun j =>
          (nget (claimNs ns2 i z) j).y * ((nget (claimNs ns2 i z) j).numPoints : K)).sum := by
        refine List.sum_nonneg (fun t ht => ?_)
        obtain ⟨j, hj, hjt⟩ := List.mem_map.mp ht
        rw [← hjt]
        exact mul_nonneg (hnbu j hj).2.2.1 (Nat.cast_nonneg _)
      linarith
    have hwx_le : aggWxSum o z ns2 i ≤ ((aggNP o z ns2 i : ℕ) : K) := by
      rw [hcastN]
      unfold aggWxSum
      have h1 : (claimP ns2 i z).wx * ((claimP ns2 i z).numPoints : K)
          ≤ ((claimP ns2 i z).numPoints : K) := by
        calc (claimP ns2 i z).wx * ((claimP ns2 i z).numPoints : K)
            ≤ 1 * ((claimP ns2 i z).numPoints : K) :=
              mul_le_mul_of_nonneg_right hp6 (Nat.cast_nonneg _)
          _ = ((claimP ns2 i z).numPoints : K) := one_mul _
      have h2 : ((nbrsAt o z ns2 i).map fun j =>
            (nget (claimNs ns2 i z) j).x * ((nget (claimNs ns2 i z) j).numPoints : K)).sum
          ≤ ((nbrsAt o z ns2 i).map fun j =>
            ((nget (claimNs ns2 i z) j).numPoints : K)).sum := by
        refine List.sum_le_sum (fun j hj => ?_)
        calc (nget (claimNs ns2 i z) j).x * ((nget (claimNs ns2 i z) j).numPoints : K)
            ≤ 1 * ((nget (claimNs ns2 i z) j).numPoints : K) :=
              mul_le_mul_of_nonneg_right (hnbu j hj).2.1 (Nat.cast_nonneg _)
          _ = ((nget (claimNs ns2 i z) j).numPoints : K) := one_mul _
      linarith
    have hwy_le : aggWySum o z ns2 i ≤ ((aggNP o z ns2 i : ℕ) : K) := by
      rw [hcastN]
      unfold aggWySum
      have h1 : (claimP ns2 i z).wy * ((claimP ns2 i z).numPoints : K)
          ≤ ((claimP ns2 i z).numPoints : K) := by
        calc (claimP ns2 i z).wy * ((claimP ns2 i z).numPoints : K)
            ≤ 1 * ((claimP ns2 i z).numPoints : K) :=
              mul_le_mul_of_nonneg_right hp8 (Nat.cast_nonneg _)
          _ = ((claimP ns2 i z).numPoints : K) := one_mul _
      have h2 : ((nbrsAt o z ns2 i).map fun j =>
            (nget (claimNs ns2 i z) j).y * ((nget (claimNs ns2 i z) j).numPoints : K)).sum
          ≤ ((nbrsAt o z ns2 i).map fun j =>
            ((nget (claimNs ns2 i z) j).numPoints : K)).sum := by
        refine List.sum_le_sum (fun j hj => ?_)
        calc (nget (claimNs ns2 i z) j).y * ((nget (claimNs ns2 i z) j).numPoints : K)
            ≤ 1 * ((nget (claimNs ns2 i z) j).numPoints : K) :=
              mul_le_mul_of_nonneg_right (hnbu j hj).2.2.2.1 (Nat.cast_nonneg _)
          _ = ((nget (claimNs ns2 i z) j).numPoints : K) := one_mul _
      linarith
    refine ⟨?_, ?_, ?_, ?_, ?_, ?_, ?_, ?_, ?_⟩
    · simpa [aggregateNode, claimP] using hp1
    · simpa [aggregateNode, claimP] using hp2
    · simpa [aggregateNode, claimP] using hp3
    · simpa [aggregateNode, claimP] using hp4
    · show 0 ≤ aggWxSum o z ns2 i / ((aggNP o z ns2 i : ℕ) : K)
      exact div_nonneg hwx_nonneg (le_of_lt hNpos)
    · show aggWxSum o z ns2 i / ((aggNP o z ns2 i : ℕ) : K) ≤ 1
      exact (div_le_one hNpos).mpr hwx_le
    · show 0 ≤ aggWySum o z ns2 i / ((aggNP o z ns2 i : ℕ) : K)
      exact div_nonneg hwy_nonneg (le_of_lt hNpos)
    · show aggWySum o z ns2 i / ((aggNP o z ns2 i : ℕ) : K) ≤ 1
      exact (div_le_one hNpos).mpr hwy_le
    · show 1 ≤ aggNP o z ns2 i
      exact hNge

/-- Every tier of the cascade inherits the unit-box bounds from its input
node set. -/
theorem cascade_inUnit (o : Options K) (n : ℕ) :
    ∀ (cs : List (Node K)) (z : ℕ), (∀ c ∈ cs, InUnit c) →
      ∀ l ∈ cascade o cs z n, ∀ c ∈ l, InUnit c := by
  induction n with
  | zero =>
    intro cs z H l hl
    rw [show cascade o cs z 0 = [cs] from rfl] at hl
    simp at hl
    rw [hl]
    exact H
  | succ n ih =>
    intro cs z H l hl
    rw [show cascade o cs z (n+1) = cs :: cascade o (clusterRun o cs z) (z-1) n
        from rfl] at hl
    rcases List.mem_cons.mp hl with hl | hl
    · rw [hl]; exact H
    · exact ih (clusterRun o cs z) (z-1) (clusterRun_inUnit o cs z H) l hl

/-- `latY` clamps its output to `[0,1]` for every latitude. -/
theorem latY_mem_unit (lat : ℝ) : 0 ≤ latY lat ∧ latY lat ≤ 1 := by
  unfold latY
  dsimp only
  split_ifs with h1 h2 h3 h4
  · norm_num
  · norm_num
  · norm_num
  · norm_num
  · constructor <;> linarith

theorem lngX_mem_unit {lng : K} (h1 : -180 ≤ lng) (h2 : lng ≤ 180) :
    0 ≤ lngX lng ∧ lngX lng ≤ 1 := by
  unfold lngX
  norm_num
  constructor <;> linarith

theorem leavesOf_inUnit {features : List Feature}
    (hlng : ∀ f ∈ features, -180 ≤ f.lng ∧ f.lng ≤ 180) :
    ∀ c ∈ leavesOf features, InUnit c := by
  intro c hc
  obtain ⟨q, hq, hqc⟩ := List.mem_map.mp hc
  have hf : q.2 ∈ features := by
    have h2 := List.mem_enum_iff_getElem?.mp hq
    obtain ⟨hlt, heq⟩ := List.getElem?_eq_some.mp h2
    rw [← heq]
    exact List.getElem_mem hlt
  obtain ⟨h1, h2⟩ := hlng q.2 hf
  obtain ⟨hx1, hx2⟩ := lngX_mem_unit h1 h2
  obtain ⟨hy1, hy2⟩ := latY_mem_unit q.2.lat
  rw [← hqc]
  exact ⟨hx1, hx2, hy1, hy2, hx1, hx2, hy1, hy2, le_refl 1⟩

/-- Claim C7: for every node in the built hierarchy (leaf or aggregate, at
every tier), all four coordinates `x, y, wx, wy` lie in `[0,1]` (for
inputs whose longitudes are in the valid range `[-180, 180]`); in
particular `latY` clamps its output to `[0,1]` for every latitude,
including values at or beyond the poles. -/
theorem claimC7_unit_interval (o : Options ℝ) (features : List Feature)
    (hlng : ∀ f ∈ features, -180 ≤ f.lng ∧ f.lng ≤ 180) :
    (∀ t : ℕ, ∀ c ∈ tier o features t,
      (0 ≤ c.x ∧ c.x ≤ 1) ∧ (0 ≤ c.y ∧ c.y ≤ 1) ∧
      (0 ≤ c.wx ∧ c.wx ≤ 1) ∧ (0 ≤ c.wy ∧ c.wy ≤ 1)) ∧
    (∀ lat : ℝ, 0 ≤ latY lat ∧ latY lat ≤ 1) := by
  refine ⟨?_, latY_mem_unit⟩
  intro t c hc
  have hmem : tier o features t ∈ load o features ∨ tier o features t = [] := by
    unfold tier tierNodes
    by_cases hidx : o.maxZoom + 1 - t < (loadNodes o (leavesOf features)).length
    · exact Or.inl (list_getD_mem hidx _)
    · refine Or.inr ?_
      rw [List.getD_eq_getElem?_getD, List.getElem?_eq_none (by omega)]
      rfl
  rcases hmem with hmem | hmem
  · have := cascade_inUnit o (o.maxZoom + 1 - o.minZoom) (leavesOf features)
      o.maxZoom (leavesOf_inUnit hlng) (tier o features t) hmem c hc
    obtain ⟨g1, g2, g3, g4, g5, g6, g7, g8, _⟩ := this
    exact ⟨⟨g1, g2⟩, ⟨g3, g4⟩, ⟨g5, g6⟩, ⟨g7, g8⟩⟩
  · rw [hmem] at hc
    exact absurd hc (List.not_mem_nil c)

/-- Witness for claim C7 at a concrete input. -/
theorem claimC7_witness :
    (∀ t : ℕ, ∀ c ∈ tier ⟨0, 1, 40, 512⟩ [⟨0, 0⟩, ⟨90, 100⟩] t,
      (0 ≤ c.x ∧ c.x ≤ 1) ∧ (0 ≤ c.y ∧ c.y ≤ 1) ∧
      (0 ≤ c.wx ∧ c.wx ≤ 1) ∧ (0 ≤ c.wy ∧ c.wy ≤ 1)) ∧
    (∀ lat : ℝ, 0 ≤ latY lat ∧ latY lat ≤ 1) :=
  claimC7_unit_interval ⟨0, 1, 40, 512⟩ [⟨0, 0⟩, ⟨90, 100⟩]
    (by
      intro f hf
      rcases List.mem_cons.mp hf with hf | hf
      · rw [hf]; norm_num
      · have hf2 : f = ⟨90, 100⟩ := by simpa using hf
        rw [hf2]; norm_num)

/-- Claim C8: `getClusters` never fails for any zoom argument: it clamps
the zoom to `[minZoom, maxZoom + 1]` and searches that tier, returning the
same result as a call with the clamped zoom.  (The model is total, so
"never fails" is expressed by the result being well-defined and equal to
the clamped-zoom call, with the clamp landing in range.) -/
theorem claimC8_zoom_clamp (o : Options ℝ) (features : List Feature)
    (b : BBox) (zoom : ℤ) (ho : o.minZoom ≤ o.maxZoom + 1) :
    getClusters o features b zoom
      = getClusters o features b
          (max (o.minZoom : ℤ) (min zoom ((o.maxZoom : ℤ) + 1))) ∧
    (o.minZoom : ℤ) ≤ max (o.minZoom : ℤ) (min zoom ((o.maxZoom : ℤ) + 1)) ∧
    max (o.minZoom : ℤ) (min zoom ((o.maxZoom : ℤ) + 1)) ≤ (o.maxZoom : ℤ) + 1 := by
  have hab : (o.minZoom : ℤ) ≤ (o.maxZoom : ℤ) + 1 := by exact_mod_cast ho
  have h1 : (o.minZoom : ℤ) ≤ max (o.minZoom : ℤ) (min zoom ((o.maxZoom : ℤ) + 1)) :=
    le_max_left _ _
  have h2 : max (o.minZoom : ℤ) (min zoom ((o.maxZoom : ℤ) + 1)) ≤ (o.maxZoom : ℤ) + 1 :=
    max_le hab (min_le_right _ _)
  refine ⟨?_, h1, h2⟩
  have hidem : max (o.minZoom : ℤ)
      (min (max (o.minZoom : ℤ) (min zoom ((o.maxZoom : ℤ) + 1))) ((o.maxZoom : ℤ) + 1))
      = max (o.minZoom : ℤ) (min zoom ((o.maxZoom : ℤ) + 1)) := by
    rw [min_eq_left h2, max_eq_right h1]
  simp only [getClusters]
  rw [hidem]

/-- Witness for claim C8 at a concrete input: a zoom argument far below
`minZoom`. -/
theorem claimC8_witness :
    getClusters ⟨0, 1, 40, 512⟩ [⟨0, 0⟩] ⟨-180, -85, 180, 85⟩ (-5)
      = getClusters ⟨0, 1, 40, 512⟩ [⟨0, 0⟩] ⟨-180, -85, 180, 85⟩
          (max ((0 : ℕ) : ℤ) (min (-5) (((1 : ℕ) : ℤ) + 1))) ∧
    ((0 : ℕ) : ℤ) ≤ max ((0 : ℕ) : ℤ) (min (-5) (((1 : ℕ) : ℤ) + 1)) ∧
    max ((0 : ℕ) : ℤ) (min (-5) (((1 : ℕ) : ℤ) + 1)) ≤ ((1 : ℕ) : ℤ) + 1 :=
  claimC8_zoom_clamp ⟨0, 1, 40, 512⟩ [⟨0, 0⟩] ⟨-180, -85, 180, 85⟩ (-5)
    (by norm_num)

/-- The top tier (`maxZoom + 1`) is exactly the node set `load` indexed
before the first merge pass. -/
theorem tierNodes_top (o : Options K) (cs : List (Node K)) :
    tierNodes o cs (o.maxZoom + 1) = cs := by
  unfold tierNodes loadNodes
  rw [Nat.sub_self]
  cases o.maxZoom + 1 - o.minZoom <;> rfl

/-- Counterexample to claim C5 as stated.  The input feature has longitude
400 (far outside `[-180, 180]`), yet `load` does not fail: it builds the
hierarchy and places a perfectly ordinary leaf node for the feature (with
`x = 400/360 + 1/2 = 29/18`, projected without any validation) in the top
tier, whose mass is 1. -/
theorem claimC5_counterexample :
    ((180 : ℝ) < 400) ∧
    (tier ⟨0, 0, 40, 512⟩ [⟨400, 0⟩] 1).map
        (fun c => (c.x, c.y, c.numPoints, c.point))
      = [(29/18, 1/2, 1, some 0)] ∧
    listMass (tier ⟨0, 0, 40, 512⟩ [⟨400, 0⟩] 1) = 1 := by
  refine ⟨by norm_num, ?_, ?_⟩
  · rw [show tier ⟨0, 0, 40, 512⟩ [⟨400, 0⟩] 1
        = tierNodes ⟨0, 0, 40, 512⟩ (leavesOf [⟨400, 0⟩]) 1 from rfl]
    rw [show ((1 : ℕ)) = (⟨0, 0, 40, 512⟩ : Options ℝ).maxZoom + 1 from rfl]
    rw [tierNodes_top]
    simp [leavesOf, createPointCluster, lngX, latY]
    norm_num [Real.log_one]
  · rw [show tier ⟨0, 0, 40, 512⟩ [⟨400, 0⟩] 1
        = tierNodes ⟨0, 0, 40, 512⟩ (leavesOf [⟨400, 0⟩]) 1 from rfl]
    rw [show ((1 : ℕ)) = (⟨0, 0, 40, 512⟩ : Options ℝ).maxZoom + 1 from rfl]
    rw [tierNodes_top, listMass_leavesOf]
    rfl

/-- Claim C5 amended: `load` performs no coordinate validation and never
fails.  For every feature list — including non-finite-range longitudes and
latitudes at or beyond the poles — it builds the full hierarchy; the top
tier holds exactly one leaf node per input feature, each of mass 1, with
its vertical coordinate clamped into `[0,1]` by `latY`. -/
theorem claimC5_amended (o : Options ℝ) (features : List Feature) :
    (tier o features (o.maxZoom + 1)).length = features.length ∧
    ∀ c ∈ tier o features (o.maxZoom + 1),
      c.numPoints = 1 ∧ (0 ≤ c.y ∧ c.y ≤ 1) ∧ c.zoom = none := by
  rw [show tier o features (o.maxZoom + 1)
      = tierNodes o (leavesOf features) (o.maxZoom + 1) from rfl]
  rw [tierNodes_top]
  constructor
  · simp [leavesOf]
  · intro c hc
    obtain ⟨q, hq, hqc⟩ := List.mem_map.mp hc
    rw [← hqc]
    exact ⟨rfl, latY_mem_unit q.2.lat, rfl⟩

/-- Witness for the amended claim C5 at a concrete out-of-range input. -/
theorem claimC5_witness :
    (tier ⟨0, 0, 40, 512⟩ [⟨400, 0⟩] 1).length = 1 ∧
    ((createPointCluster 0 ⟨400, 0⟩).numPoints = 1 ∧
     (0 ≤ (createPointCluster 0 ⟨400, 0⟩).y ∧
      (createPointCluster 0 ⟨400, 0⟩).y ≤ 1) ∧
     (createPointCluster 0 ⟨400, 0⟩).zoom = none) := by
  obtain ⟨h1, h2⟩ := claimC5_amended ⟨0, 0, 40, 512⟩ [⟨400, 0⟩]
  refine ⟨h1, h2 (createPointCluster 0 ⟨400, 0⟩) ?_⟩
  rw [show tier ⟨0, 0, 40, 512⟩ [⟨400, 0⟩] 1
      = tierNodes ⟨0, 0, 40, 512⟩ (leavesOf [⟨400, 0⟩]) 1 from rfl]
  rw [show ((1 : ℕ)) = (⟨0, 0, 40, 512⟩ : Options ℝ).maxZoom + 1 from rfl]
  rw [tierNodes_top]
  simp [leavesOf]

/-! Execution trace of one merge pass, used to state the single-writer
property of the `zoom` field. -/

/-- The successive loop states while the outer loop of `_cluster` processes
the given index list. -/
def stateTrace (o : Options K) (z : ℕ) (s : PassState K) :
    List ℕ → List (PassState K)
  | [] => [s]
  | i :: l => s :: stateTrace o z (clusterStep o z s i) l

/-- All states of the merge pass at zoom `z`, from the initial working set
to the final state. -/
def passStates (o : Options K) (pts : List (Node K)) (z : ℕ) :
    List (PassState K) :=
  stateTrace o z ⟨pts, []⟩ (List.range pts.length)

/-- Consecutive pairs of a trace. -/
def consecutivePairs {β : Type} (l : List β) : List (β × β) :=
  l.zip l.tail

/-- How often the pass at zoom `z` writes the `zoom` field of the node at
index `i`: the number of consecutive trace states across which the stored
value changes. -/
def zoomWrites (o : Options K) (pts : List (Node K)) (z i : ℕ) : ℕ :=
  (consecutivePairs (passStates o pts z)).countP
    fun q => decide ((nget q.2.ns i).zoom ≠ (nget q.1.ns i).zoom)

theorem consecutivePairs_stateTrace (o : Options K) (z : ℕ) (s : PassState K)
    (i : ℕ) (l : List ℕ) :
    consecutivePairs (stateTrace o z s (i :: l))
      = (s, clusterStep o z s i)
        :: consecutivePairs (stateTrace o z (clusterStep o z s i) l) := by
  cases l <;> rfl

theorem stateTrace_pairs (o : Options K) (z : ℕ) (n : ℕ) :
    ∀ (l : List ℕ) (s : PassState K), (∀ j ∈ l, j < n) → s.ns.length = n →
      ∀ q ∈ consecutivePairs (stateTrace o z s l),
        q.1.ns.length = n ∧ ∃ j, j < n ∧ q.2 = clusterStep o z q.1 j := by
  intro l
  induction l with
  | nil =>
    intro s _ _ q hq
    simp [stateTrace, consecutivePairs] at hq
  | cons i t ih =>
    intro s hl hs q hq
    rw [consecutivePairs_stateTrace] at hq
    rcases List.mem_cons.mp hq with hq | hq
    · subst hq
      exact ⟨hs, i, hl i (List.mem_cons_self i t), rfl⟩
    · refine ih (clusterStep o z s i)
        (fun j hj => hl j (List.mem_cons_of_mem i hj)) ?_ q hq
      rw [clusterStep_length, hs]

theorem stateTrace_writes_zero (o : Options K) (z : ℕ) (n i : ℕ) :
    ∀ (l : List ℕ) (s : PassState K), (∀ j ∈ l, j < n) → s.ns.length = n →
      zoomLE (nget s.ns i).zoom z = true →
      (consecutivePairs (stateTrace o z s l)).countP
        (fun q => decide ((nget q.2.ns i).zoom ≠ (nget q.1.ns i).zoom)) = 0 := by
  intro l
  induction l with
  | nil =>
    intro s _ _ _
    rfl
  | cons j t ih =>
    intro s hl hs hQ
    rw [consecutivePairs_stateTrace, List.countP_cons]
    have hj : j < s.ns.length := by rw [hs]; exact hl j (List.mem_cons_self j t)
    have hstep : nget (clusterStep o z s j).ns i = nget s.ns i := by
      rcases clusterStep_nget o z s j hj i with hc | ⟨hu, hc⟩
      · exact hc
      · rw [ltZoom_eq_not_zoomLE, hQ] at hu
        simp at hu
    have hrec := ih (clusterStep o z s j)
      (fun k hk => hl k (List.mem_cons_of_mem j hk))
      (by rw [clusterStep_length, hs]) (by rw [hstep]; exact hQ)
    rw [hrec, hstep]
    simp

theorem stateTrace_writes_le_one (o : Options K) (z : ℕ) (n i : ℕ) :
    ∀ (l : List ℕ) (s : PassState K), (∀ j ∈ l, j < n) → s.ns.length = n →
      (consecutivePairs (stateTrace o z s l)).countP
        (fun q => decide ((nget q.2.ns i).zoom ≠ (nget q.1.ns i).zoom)) ≤ 1 := by
  intro l
  induction l with
  | nil =>
    intro s _ _
    simp [stateTrace, consecutivePairs]
  | cons j t ih =>
    intro s hl hs
    rw [consecutivePairs_stateTrace, List.countP_cons]
    have hj : j < s.ns.length := by rw [hs]; exact hl j (List.mem_cons_self j t)
    have hl' : ∀ k ∈ t, k < n := fun k hk => hl k (List.mem_cons_of_mem j hk)
    have hs' : (clusterStep o z s j).ns.length = n := by
      rw [clusterStep_length, hs]
    by_cases hchg : nget (clusterStep o z s j).ns i = nget s.ns i
    · have hrec := ih (clusterStep o z s j) hl' hs'
      rw [hchg]
      simpa using hrec
    · have hQ : zoomLE (nget (clusterStep o z s j).ns i).zoom z = true := by
        rcases clusterStep_nget o z s j hj i with hc | ⟨hu, hc⟩
        · exact absurd hc hchg
        · rw [hc]
          simp [zoomLE]
      have hz := stateTrace_writes_zero o z n i t (clusterStep o z s j) hl' hs' hQ
      rw [hz]
      split_ifs <;> norm_num

/-- Claim C9: during a single merge pass each node's zoom field is written
at most once (the stored value changes across at most one loop iteration),
and whenever it changes it is overwritten with exactly the pass zoom `z`
while the previous value was strictly greater (the `Infinity` sentinel or
a later-pass zoom) — which makes the values written to any node strictly
decreasing across the successive passes of the cascade, since those run at
strictly decreasing zooms. -/
theorem claimC9_single_write (o : Options K) (pts : List (Node K)) (z i : ℕ) :
    zoomWrites o pts z i ≤ 1 ∧
    (∀ q ∈ consecutivePairs (passStates o pts z),
      (nget q.2.ns i).zoom ≠ (nget q.1.ns i).zoom →
      ((nget q.2.ns i).zoom = some z ∧
       ltZoom z (nget q.1.ns i).zoom = true)) := by
  constructor
  · exact stateTrace_writes_le_one o z pts.length i (List.range pts.length)
      ⟨pts, []⟩ (fun j hj => List.mem_range.mp hj) rfl
  · intro q hq hne
    obtain ⟨hlen, j, hjn, he⟩ := stateTrace_pairs o z pts.length
      (List.range pts.length) ⟨pts, []⟩ (fun k hk => List.mem_range.mp hk) rfl q hq
    have hj : j < q.1.ns.length := by rw [hlen]; exact hjn
    rcases clusterStep_nget o z q.1 j hj i with hc | ⟨hu, hc⟩
    · rw [he] at hne
      exact absurd (congrArg Node.zoom hc) hne
    · rw [he, hc]
      exact ⟨Node.zoom_setZoom _ _, hu⟩

/-- Witness for claim C9 at a concrete input: a one-node pass whose single
iteration writes the zoom once (from the sentinel to the pass zoom). -/
theorem claimC9_witness :
    zoomWrites optQ [createCluster (1/2) (1/2)] 0 0 ≤ 1 ∧
    ((nget (clusterStep optQ 0 ⟨[createCluster (1/2) (1/2)], []⟩ 0).ns 0).zoom
        = some 0 ∧
     ltZoom 0 (nget (PassState.mk [createCluster ((1:ℚ)/2) (1/2)] []).ns 0).zoom
        = true) := by
  refine ⟨(claimC9_single_write optQ [createCluster (1/2) (1/2)] 0 0).1, ?_⟩
  refine (claimC9_single_write optQ [createCluster (1/2) (1/2)] 0 0).2
    (⟨[createCluster (1/2) (1/2)], []⟩,
     clusterStep optQ 0 ⟨[createCluster (1/2) (1/2)], []⟩ 0) ?_ ?_
  · have hps : consecutivePairs (passStates optQ [createCluster (1/2) (1/2)] 0)
        = [(⟨[createCluster (1/2) (1/2)], []⟩,
            clusterStep optQ 0 ⟨[createCluster (1/2) (1/2)], []⟩ 0)] := by
      simp [passStates, stateTrace, consecutivePairs, List.range_succ]
    rw [hps]
    exact List.mem_singleton.mpr rfl
  · have hstep : (nget (clusterStep optQ 0
        ⟨[createCluster (1/2) (1/2)], []⟩ 0).ns 0).zoom = some 0 := by
      norm_num [clusterStep, nget, createCluster, zoomLE, nbrsAt, _getNeighbors,
        claimNs, claimP, searchBBox, searchRadius, optQ, distSq, ltZoom,
        List.range_succ, List.filter, absorbStep, Node.setZoom]
    rw [hstep]
    simp [nget, createCluster]

/-! Numeric facts for the projection round-trip: the latitude band
`(-85.05, 85.05)` keeps the raw Mercator value inside `[0,1]`, which needs
`sin(85.05°) ≤ tanh(π)`-style bounds with about six decimal digits of
precision. -/

theorem c6_cos_bound : Real.cos (11 * Real.pi / 400) ≤ 0.996271 := by
  have hπl : (3.141592 : ℝ) < Real.pi := Real.pi_gt_d6
  have hπu : Real.pi < 3.141593 := Real.pi_lt_d6
  set x : ℝ := 11 * Real.pi / 400 with hxdef
  have hx0 : 0 < x := by
    rw [hxdef]
    positivity
  have hxl : (0.08639378 : ℝ) ≤ x := by
    rw [hxdef]
    linarith
  have hxu : x ≤ (0.08639381 : ℝ) := by
    rw [hxdef]
    linarith
  have habs : |x| ≤ 1 := by
    rw [abs_of_pos hx0]
    linarith
  have hb := Real.cos_bound habs
  rw [abs_of_pos hx0] at hb
  have hb2 : Real.cos x ≤ 1 - x ^ 2 / 2 + x ^ 4 * (5 / 96) := by
    have := (abs_le.mp hb).2
    linarith
  have hx2 : (0.08639378 : ℝ) ^ 2 ≤ x ^ 2 :=
    pow_le_pow_left₀ (by norm_num) hxl 2
  have hx4 : x ^ 4 ≤ (0.08639381 : ℝ) ^ 4 :=
    pow_le_pow_left₀ (le_of_lt hx0) hxu 4
  have hnum : 1 - (0.08639378 : ℝ) ^ 2 / 2 + (0.08639381 : ℝ) ^ 4 * (5 / 96)
      ≤ 0.996271 := by norm_num
  linarith

theorem c6_sin_bound : Real.sin (85.05 * Real.pi / 180) ≤ 0.996271 := by
  have h : (85.05 : ℝ) * Real.pi / 180 = Real.pi / 2 - 11 * Real.pi / 400 := by
    ring
  rw [h, Real.sin_pi_div_two_sub]
  exact c6_cos_bound

theorem c6_exp_pi : (23.138 : ℝ) ≤ Real.exp Real.pi := by
  have h1 := Real.sum_le_exp_of_nonneg (by norm_num : (0 : ℝ) ≤ 3.141592) 13
  have h2 : (23.138 : ℝ) ≤ ∑ i ∈ Finset.range 13, (3.141592 : ℝ) ^ i / i.factorial := by
    rw [show (13 : ℕ) = 12 + 1 from rfl]
    norm_num [Finset.sum_range_succ, Nat.factorial]
  have h3 : Real.exp 3.141592 ≤ Real.exp Real.pi :=
    Real.exp_le_exp.mpr (le_of_lt Real.pi_gt_d6)
  have h4 : (∑ i ∈ Finset.range 13, (3.141592 : ℝ) ^ i / i.factorial)
      ≤ Real.exp 3.141592 := h1
  linarith

theorem c6_exp_two_pi : (535.34 : ℝ) ≤ Real.exp (2 * Real.pi) := by
  have h := c6_exp_pi
  have he : Real.exp (2 * Real.pi) = Real.exp Real.pi * Real.exp Real.pi := by
    rw [two_mul, Real.exp_add]
  rw [he]
  nlinarith [Real.exp_pos Real.pi]

set_option maxHeartbeats 2000000 in
/-- The projection round-trip on the vertical axis: for latitudes strictly
inside `(-85.05, 85.05)` the raw Mercator value stays inside `[0,1]`, the
clamp of `latY` is inactive, and `yLat` inverts it exactly. -/
theorem yLat_latY {l : ℝ} (h1 : -85.05 < l) (h2 : l < 85.05) :
    yLat (latY l) = l := by
  have hπ : (0 : ℝ) < Real.pi := Real.pi_pos
  set θ : ℝ := l * Real.pi / 180 with hθdef
  have hθu : θ ≤ 85.05 * Real.pi / 180 := by
    rw [hθdef]
    have := mul_le_mul_of_nonneg_right (le_of_lt h2) (le_of_lt hπ)
    linarith
  have hθl : -(85.05 * Real.pi / 180) ≤ θ := by
    rw [hθdef]
    have := mul_le_mul_of_nonneg_right (le_of_lt h1) (le_of_lt hπ)
    linarith
  have hθ0u : (85.05 : ℝ) * Real.pi / 180 < Real.pi / 2 := by linarith
  have hhu : θ / 2 < Real.pi / 4 := by linarith
  have hhl : -(Real.pi / 4) < θ / 2 := by linarith
  set sn : ℝ := Real.sin (θ / 2) with hsndef
  set c : ℝ := Real.cos (θ / 2) with hcdef
  have hc0 : 0 < c := by
    rw [hcdef]
    exact Real.cos_pos_of_mem_Ioo (Set.mem_Ioo.mpr ⟨by linarith, by linarith⟩)
  have hsqrt2 : 0 < Real.sqrt 2 := Real.sqrt_pos.mpr (by norm_num)
  have hcos_sub : Real.cos (θ / 2 + Real.pi / 4) = (c - sn) * (Real.sqrt 2 / 2) := by
    rw [Real.cos_add, Real.cos_pi_div_four, Real.sin_pi_div_four, ← hsndef, ← hcdef]
    ring
  have hpos1 : 0 < Real.cos (θ / 2 + Real.pi / 4) :=
    Real.cos_pos_of_mem_Ioo (Set.mem_Ioo.mpr ⟨by linarith, by linarith⟩)
  have hcsn : 0 < c - sn := by
    nlinarith [hpos1, hcos_sub, hsqrt2]
  have hcos_add : Real.cos (θ / 2 - Real.pi / 4) = (c + sn) * (Real.sqrt 2 / 2) := by
    rw [Real.cos_sub, Real.cos_pi_div_four, Real.sin_pi_div_four, ← hsndef, ← hcdef]
    ring
  have hpos2 : 0 < Real.cos (θ / 2 - Real.pi / 4) :=
    Real.cos_pos_of_mem_Ioo (Set.mem_Ioo.mpr ⟨by linarith, by linarith⟩)
  have hcsn' : 0 < c + sn := by
    nlinarith [hpos2, hcos_add, hsqrt2]
  have hs2 : Real.sin θ = 2 * sn * c := by
    conv_lhs => rw [show θ = 2 * (θ / 2) from by ring]
    rw [Real.sin_two_mul, ← hsndef, ← hcdef]
  have hpyth : sn ^ 2 + c ^ 2 = 1 := by
    rw [hsndef, hcdef]
    exact Real.sin_sq_add_cos_sq (θ / 2)
  have h1s : 1 + Real.sin θ = (c + sn) ^ 2 := by
    rw [hs2]
    linear_combination -hpyth
  have h1s' : 1 - Real.sin θ = (c - sn) ^ 2 := by
    rw [hs2]
    linear_combination -hpyth
  have hslt : Real.sin θ < 1 := by
    have := pow_pos hcsn 2
    linarith
  have hsgt : (-1 : ℝ) < Real.sin θ := by
    have := pow_pos hcsn' 2
    linarith
  have hmemθ : θ ∈ Set.Icc (-(Real.pi / 2)) (Real.pi / 2) :=
    Set.mem_Icc.mpr ⟨by linarith, by linarith⟩
  have hmemθ0 : (85.05 : ℝ) * Real.pi / 180 ∈ Set.Icc (-(Real.pi / 2)) (Real.pi / 2) :=
    Set.mem_Icc.mpr ⟨by linarith, by linarith⟩
  have hmemθ0' : -((85.05 : ℝ) * Real.pi / 180) ∈ Set.Icc (-(Real.pi / 2)) (Real.pi / 2) :=
    Set.mem_Icc.mpr ⟨by linarith, by linarith⟩
  have hs_ub : Real.sin θ ≤ 0.996271 := by
    have hmono : Real.sin θ ≤ Real.sin (85.05 * Real.pi / 180) :=
      Real.strictMonoOn_sin.monotoneOn hmemθ hmemθ0 hθu
    linarith [c6_sin_bound]
  have hs_lb : (-0.996271 : ℝ) ≤ Real.sin θ := by
    have hmono : Real.sin (-(85.05 * Real.pi / 180)) ≤ Real.sin θ :=
      Real.strictMonoOn_sin.monotoneOn hmemθ0' hmemθ hθl
    rw [Real.sin_neg] at hmono
    linarith [c6_sin_bound]
  have hden : (0 : ℝ) < 1 - Real.sin θ := by linarith
  have hnum : (0 : ℝ) < 1 + Real.sin θ := by linarith
  have hR0 : 0 < (1 + Real.sin θ) / (1 - Real.sin θ) := div_pos hnum hden
  have hRub : (1 + Real.sin θ) / (1 - Real.sin θ) ≤ Real.exp (2 * Real.pi) := by
    have hq : (1 + Real.sin θ) / (1 - Real.sin θ)
        ≤ (1 + 0.996271) / (1 - 0.996271) :=
      div_le_div₀ (by norm_num) (by linarith) (by norm_num) (by linarith)
    have hq2 : ((1 : ℝ) + 0.996271) / (1 - 0.996271) ≤ 535.34 := by norm_num
    linarith [c6_exp_two_pi]
  have hRlb : Real.exp (-(2 * Real.pi)) ≤ (1 + Real.sin θ) / (1 - Real.sin θ) := by
    have hq : ((1 : ℝ) - 0.996271) / (1 + 0.996271)
        ≤ (1 + Real.sin θ) / (1 - Real.sin θ) :=
      div_le_div₀ (le_of_lt hnum) (by linarith) hden (by linarith)
    have hq2 : Real.exp (-(2 * Real.pi)) ≤ ((1 : ℝ) - 0.996271) / (1 + 0.996271) := by
      rw [Real.exp_neg]
      have hstep : (Real.exp (2 * Real.pi))⁻¹ ≤ (535.34 : ℝ)⁻¹ :=
        inv_anti₀ (by norm_num) c6_exp_two_pi
      have hq3 : ((535.34 : ℝ))⁻¹ ≤ ((1 : ℝ) - 0.996271) / (1 + 0.996271) := by
        norm_num
      linarith
    linarith
  have hlog_ub : Real.log ((1 + Real.sin θ) / (1 - Real.sin θ)) ≤ 2 * Real.pi :=
    (Real.log_le_iff_le_exp hR0).mpr hRub
  have hlog_lb : -(2 * Real.pi) ≤ Real.log ((1 + Real.sin θ) / (1 - Real.sin θ)) :=
    (Real.le_log_iff_exp_le hR0).mpr hRlb
  have hlatY : latY l
      = 0.5 - 0.25 * Real.log ((1 + Real.sin θ) / (1 - Real.sin θ)) / Real.pi := by
    unfold latY
    dsimp only
    rw [← hθdef]
    rw [if_neg (ne_of_lt hslt), if_neg (ne_of_gt hsgt)]
    rw [if_neg (not_lt.mpr (by
      have hd : 0.25 * Real.log ((1 + Real.sin θ) / (1 - Real.sin θ)) / Real.pi
          ≤ 0.5 := by
        rw [div_le_iff₀ hπ]
        linarith
      linarith))]
    rw [if_neg (not_lt.mpr (by
      have hd : (-0.5 : ℝ)
          ≤ 0.25 * Real.log ((1 + Real.sin θ) / (1 - Real.sin θ)) / Real.pi := by
        rw [le_div_iff₀ hπ]
        linarith
      linarith))]
  rw [hlatY]
  unfold yLat
  dsimp only
  have hy2 : (180 - (0.5 - 0.25 * Real.log ((1 + Real.sin θ) / (1 - Real.sin θ))
        / Real.pi) * 360) * Real.pi / 180
      = Real.log ((1 + Real.sin θ) / (1 - Real.sin θ)) / 2 := by
    field_simp
    ring
  rw [hy2]
  have hTpos : 0 < (c + sn) / (c - sn) := div_pos hcsn' hcsn
  have hT : Real.exp (Real.log ((1 + Real.sin θ) / (1 - Real.sin θ)) / 2)
      = (c + sn) / (c - sn) := by
    have hRT : (1 + Real.sin θ) / (1 - Real.sin θ) = ((c + sn) / (c - sn)) ^ 2 := by
      rw [h1s, h1s', div_pow]
    have hlogT : Real.log ((1 + Real.sin θ) / (1 - Real.sin θ))
        = 2 * Real.log ((c + sn) / (c - sn)) := by
      rw [hRT, Real.log_pow]
      push_cast
      ring
    rw [hlogT, show 2 * Real.log ((c + sn) / (c - sn)) / 2
        = Real.log ((c + sn) / (c - sn)) from by ring]
    exact Real.exp_log hTpos
  rw [hT]
  have htan : (c + sn) / (c - sn) = Real.tan (Real.pi / 4 + θ / 2) := by
    rw [Real.tan_eq_sin_div_cos, Real.sin_add, Real.cos_add,
      Real.sin_pi_div_four, Real.cos_pi_div_four, ← hsndef, ← hcdef]
    rw [show Real.sqrt 2 / 2 * c + Real.sqrt 2 / 2 * sn
        = Real.sqrt 2 / 2 * (c + sn) from by ring,
      show Real.sqrt 2 / 2 * c - Real.sqrt 2 / 2 * sn
        = Real.sqrt 2 / 2 * (c - sn) from by ring]
    rw [mul_div_mul_left _ _ (by positivity : Real.sqrt 2 / 2 ≠ 0)]
  rw [htan, Real.arctan_tan (by linarith) (by linarith)]
  rw [hθdef]
  field_simp
  ring

/-- Outside the Mercator band the forward map saturates: at the pole the
round-trip comes back strictly below 90°. -/
theorem yLat_latY_pole : yLat (latY 90) < 90 := by
  have hsin : Real.sin ((90 : ℝ) * Real.pi / 180) = 1 := by
    rw [show (90 : ℝ) * Real.pi / 180 = Real.pi / 2 from by ring,
      Real.sin_pi_div_two]
  have hlatY : latY 90 = 0 := by
    unfold latY
    dsimp only
    rw [hsin]
    simp
  rw [hlatY]
  unfold yLat
  dsimp only
  have h2 : ((180 : ℝ) - 0 * 360) * Real.pi / 180 = Real.pi := by ring
  rw [h2]
  have hπ : (0 : ℝ) < Real.pi := Real.pi_pos
  have harct : Real.arctan (Real.exp Real.pi) < Real.pi / 2 :=
    Real.arctan_lt_pi_div_two _
  have h3 : 360 * Real.arctan (Real.exp Real.pi) / Real.pi
      < 360 * (Real.pi / 2) / Real.pi := by
    refine (div_lt_div_iff_of_pos_right hπ).mpr ?_
    linarith
  have h4 : 360 * (Real.pi / 2) / Real.pi = 180 := by
    field_simp
    ring
  linarith

/-- Claim C6: projection round-trip.  `xLng (lngX l) = l` for every
longitude; `yLat (latY l) = l` (exactly, in the real-number model) for
every latitude strictly inside `(-85.05, 85.05)`; outside that band the
forward map saturates and the round-trip is lossy, witnessed at the pole
`l = 90` where the round-trip returns a value different from 90. -/
theorem claimC6_roundtrip :
    (∀ l : ℝ, xLng (lngX l) = l) ∧
    (∀ l : ℝ, -85.05 < l → l < 85.05 → yLat (latY l) = l) ∧
    yLat (latY 90) ≠ 90 := by
  refine ⟨fun l => ?_, fun l hl1 hl2 => yLat_latY hl1 hl2,
    ne_of_lt yLat_latY_pole⟩
  unfold lngX xLng
  ring

/-- Witness for claim C6 at concrete inputs. -/
theorem claimC6_witness :
    xLng (lngX (12 : ℝ)) = 12 ∧ yLat (latY 45) = 45 :=
  ⟨claimC6_roundtrip.1 12,
   claimC6_roundtrip.2.1 45 (by norm_num) (by norm_num)⟩

end Supercluster
